import Mathlib

/-!
Verification of the carousel-maker assembly pipeline (`src/assemble.py`)
against its natural-language specification.

The embedding models file paths abstractly (input-directory files, files in
the process working directory, and the configured output file), the file
system as a list of path/size entries, and the external transcoding engine
as an oracle indexed by invocation count.  Durations are rationals.
-/

namespace Carousel

/-- Abstract file path: a file inside the input directory, a file in the
process working directory (temporary clips, batch segments, the batch list
file), or the configured output file. -/
inductive FPath where
  | inp (name : String)
  | cwd (name : String)
  | outp
  deriving DecidableEq, Repr

def FPath.isInp : FPath → Bool
  | FPath.inp _ => true
  | _ => false

def FPath.isCwd : FPath → Bool
  | FPath.cwd _ => true
  | _ => false

/-- Zero-padding to three digits, as in the Python format `{idx:03d}`. -/
def pad3 (n : Nat) : String :=
  let s := Nat.repr n
  if s.length < 3 then String.mk (List.replicate (3 - s.length) '0') ++ s else s

def mp4Name (stem : String) (i : Nat) : String := stem ++ pad3 i ++ ".mp4"

/-- Temporary clip file name `temp_{idx:03d}.mp4` (src/assemble.py line 86). -/
def tempName (i : Nat) : String := mp4Name ("temp_") i

/-- Batch segment file name `batch_{batch_idx:03d}.mp4` (line 167). -/
def batchName (j : Nat) : String := mp4Name ("batch_") j

def batchListName : String := "batch_list.txt"

/-- Index of the last '.' in a character list, if any. -/
def lastDotIdx (cs : List Char) : Option Nat :=
  ((cs.enum.filter (fun p => p.2 == '.')).map Prod.fst).getLast?

/-- `pathlib.Path(...).suffix`: the extension from the last dot, empty when the
name has no dot, starts with its only dot, or ends with the dot. -/
def pathSuffix (s : String) : String :=
  match lastDotIdx s.data with
  | some i => if 0 < i && i < s.data.length - 1 then String.mk (s.data.drop i) else ""
  | none => ""

def lowerStr (s : String) : String := String.mk (s.data.map Char.toLower)

def supportedExts : List String := [".jpg", ".jpeg", ".png", ".mp4"]

def imageExts : List String := [".jpg", ".jpeg", ".png"]

/-- Membership test `f.suffix.lower() in supported_exts` (line 143). -/
def isSupported (name : String) : Bool := supportedExts.contains (lowerStr (pathSuffix name))

/-- Membership test `file.suffix.lower() in {'.jpg', '.jpeg', '.png'}` (line 85). -/
def isImageName (name : String) : Bool := imageExts.contains (lowerStr (pathSuffix name))

/-- Code-point lexicographic comparison of character lists: exactly the string
order Python's `sorted` applies to the file names. -/
def strLeB : List Char → List Char → Bool
  | [], _ => true
  | _ :: _, [] => false
  | a :: as, b :: bs =>
    if a.toNat < b.toNat then true
    else if b.toNat < a.toNat then false
    else strLeB as bs

/-- Python's string `<=`: code-point lexicographic. -/
def pyStrLe (a b : String) : Prop := strLeB a.data b.data = true

instance : DecidableRel pyStrLe :=
  fun a b => inferInstanceAs (Decidable (strLeB a.data b.data = true))

/-- Scanner (src/assemble.py lines 141-143): keep the files with a supported
extension and sort ascending by filename. -/
def scanFiles (listing : List String) : List String :=
  List.insertionSort pyStrLe (listing.filter isSupported)

theorem char_toNat_inj {a b : Char} (h : a.toNat = b.toNat) : a = b :=
  Char.eq_of_val_eq (UInt32.eq_of_toBitVec_eq (BitVec.eq_of_toNat_eq h))

theorem strLeB_cons_iff (a b : Char) (as bs : List Char) :
    strLeB (a :: as) (b :: bs) = true ↔
      a.toNat < b.toNat ∨ (a.toNat = b.toNat ∧ strLeB as bs = true) := by
  simp only [strLeB]
  by_cases h1 : a.toNat < b.toNat
  · simp [h1]
  · by_cases h2 : b.toNat < a.toNat
    · rw [if_neg h1, if_pos h2]
      constructor
      · intro hf; simp at hf
      · rintro (hf | ⟨hf, _⟩) <;> omega
    · have hq : a.toNat = b.toNat := by omega
      simp [h1, h2, hq]

theorem strLeB_total : ∀ (x y : List Char), strLeB x y = true ∨ strLeB y x = true
  | [], _ => Or.inl rfl
  | _ :: _, [] => Or.inr rfl
  | a :: as, b :: bs => by
    rcases Nat.lt_trichotomy a.toNat b.toNat with h | h | h
    · exact Or.inl ((strLeB_cons_iff a b as bs).mpr (Or.inl h))
    · rcases strLeB_total as bs with hr | hr
      · exact Or.inl ((strLeB_cons_iff a b as bs).mpr (Or.inr ⟨h, hr⟩))
      · exact Or.inr ((strLeB_cons_iff b a bs as).mpr (Or.inr ⟨h.symm, hr⟩))
    · exact Or.inr ((strLeB_cons_iff b a bs as).mpr (Or.inl h))

theorem strLeB_trans : ∀ (x y z : List Char),
    strLeB x y = true → strLeB y z = true → strLeB x z = true
  | [], _, _, _, _ => rfl
  | _ :: _, [], _, h, _ => by simp [strLeB] at h
  | _ :: _, _ :: _, [], _, h => by simp [strLeB] at h
  | a :: as, b :: bs, c :: cs, h1, h2 => by
    rcases (strLeB_cons_iff a b as bs).mp h1 with hab | ⟨hab, hr1⟩ <;>
      rcases (strLeB_cons_iff b c bs cs).mp h2 with hbc | ⟨hbc, hr2⟩
    · exact (strLeB_cons_iff a c as cs).mpr (Or.inl (lt_trans hab hbc))
    · exact (strLeB_cons_iff a c as cs).mpr (Or.inl (hbc ▸ hab))
    · exact (strLeB_cons_iff a c as cs).mpr (Or.inl (hab ▸ hbc))
    · exact (strLeB_cons_iff a c as cs).mpr
        (Or.inr ⟨hab.trans hbc, strLeB_trans as bs cs hr1 hr2⟩)

theorem strLeB_antisymm : ∀ (x y : List Char),
    strLeB x y = true → strLeB y x = true → x = y
  | [], [], _, _ => rfl
  | _ :: _, [], h, _ => by simp [strLeB] at h
  | [], _ :: _, _, h => by simp [strLeB] at h
  | a :: as, b :: bs, h1, h2 => by
    rcases (strLeB_cons_iff a b as bs).mp h1 with hab | ⟨hab, hr1⟩ <;>
      rcases (strLeB_cons_iff b a bs as).mp h2 with hba | ⟨hba, hr2⟩
    · omega
    · omega
    · omega
    · rw [char_toNat_inj hab, strLeB_antisymm as bs hr1 hr2]

instance : IsTotal String pyStrLe :=
  ⟨fun a b => strLeB_total a.data b.data⟩

instance : IsTrans String pyStrLe :=
  ⟨fun a b c => strLeB_trans a.data b.data c.data⟩

instance : IsAntisymm String pyStrLe :=
  ⟨fun a b h1 h2 => by
    have hd := strLeB_antisymm a.data b.data h1 h2
    cases a; cases b
    exact congrArg String.mk hd⟩

instance {ε α : Type} [DecidableEq ε] [DecidableEq α] : DecidableEq (Except ε α) :=
  fun a b =>
    match a, b with
    | Except.error x, Except.error y =>
      if h : x = y then Decidable.isTrue (by rw [h])
      else Decidable.isFalse (fun hh => h (Except.error.inj hh))
    | Except.error _, Except.ok _ => Decidable.isFalse (fun hh => Except.noConfusion hh)
    | Except.ok _, Except.error _ => Decidable.isFalse (fun hh => Except.noConfusion hh)
    | Except.ok x, Except.ok y =>
      if h : x = y then Decidable.isTrue (by rw [h])
      else Decidable.isFalse (fun hh => h (Except.ok.inj hh))

/-- Per-clip duration computed by `process_file` (src/assemble.py lines 85-89):
the configured image duration for images, otherwise the probed duration capped
by the maximum video duration; every asset but the last additionally carries
the transition duration. -/
def clipDuration (isImage : Bool)
    (imageDuration probedDuration maxVideoDuration transitionDuration : ℚ)
    (idx totalFiles : Nat) : ℚ :=
  let d := if isImage then imageDuration else min probedDuration maxVideoDuration
  if idx < totalFiles - 1 then d + transitionDuration else d

/-- The offset loop of `concatenate_batch` (src/assemble.py lines 60-69),
threading the running offset over the consumed durations. -/
def concatOffsetsAux (T : ℚ) (cur : ℚ) : List ℚ → List ℚ
  | [] => []
  | d :: rest =>
    let o := max 0 (cur + d - T)
    o :: concatOffsetsAux T o rest

/-- The crossfade offsets emitted by `concatenate_batch`: the loop runs over
`i = 1 .. B-1` consuming `clip_durations[i-1]`, i.e. all durations but the
last, in order, starting from offset 0. -/
def concatOffsets (ds : List ℚ) (T : ℚ) : List ℚ := concatOffsetsAux T 0 ds.dropLast

/-- The recurrence stated by the specification: `offset_0 = 0` and
`offset_k = max(0, offset_(k-1) + d_(k-1) - T)`. -/
def offsetRec (ds : List ℚ) (T : ℚ) : Nat → ℚ
  | 0 => 0
  | k + 1 => max 0 (offsetRec ds T k + ds.getD k 0 - T)

/-- Fuel-indexed helper for the batch partition; the fuel (the list length)
only serves termination, each step removes the next slice of `n` elements. -/
def chunksOfAux (n : Nat) : Nat → List α → List (List α)
  | 0, _ => []
  | _, [] => []
  | fuel + 1, l => l.take n :: chunksOfAux n fuel (l.drop n)

/-- The batch partition of `assemble` (src/assemble.py lines 162-166):
`temp_files[i:i+batch_size]` for `i in range(0, len(temp_files), batch_size)`. -/
def chunksOf (n : Nat) (l : List α) : List (List α) := chunksOfAux n l.length l

/-- Modelled from the spec: the batch-size bound `clamp(1, 2 × threads, 10)`
claimed by the specification.  The code itself (line 162) uses the constant
batch size 10 with no dependence on the thread count. -/
def clampBatch (threads : Nat) : Nat := max 1 (min (2 * threads) 10)

theorem concatOffsetsAux_eq_map (T : ℚ) (l : List ℚ) :
    ∀ (g : Nat → ℚ) (cur : ℚ), cur = g 0 →
      (∀ k, k < l.length → g (k + 1) = max 0 (g k + l.getD k 0 - T)) →
      concatOffsetsAux T cur l = (List.range l.length).map (fun k => g (k + 1)) := by
  induction l with
  | nil => intro g cur _ _; simp [concatOffsetsAux]
  | cons d rest ih =>
    intro g cur hc hg
    have h0 : max 0 (cur + d - T) = g 1 := by
      have h1 := hg 0 (by simp)
      rw [hc]
      simp only [List.getD_cons_zero] at h1
      exact h1.symm
    have hrec : ∀ k, k < rest.length →
        g (k + 1 + 1) = max 0 (g (k + 1) + rest.getD k 0 - T) := by
      intro k hk
      have h2 := hg (k + 1) (by simpa using Nat.succ_lt_succ hk)
      simpa [List.getD_cons_succ] using h2
    have ihh := ih (fun k => g (k + 1)) (max 0 (cur + d - T)) h0 hrec
    simp only [concatOffsetsAux, List.length_cons, List.range_succ_eq_map,
      List.map_cons, List.map_map]
    rw [ihh, h0]
    rfl

theorem length_dropLast_getD (ds : List ℚ) (k : Nat) (hk : k < ds.dropLast.length) :
    ds.dropLast.getD k 0 = ds.getD k 0 := by
  have hkl : k < ds.length := lt_of_lt_of_le hk (List.dropLast_sublist ds).length_le
  rw [List.getD_eq_getElem _ _ hk, List.getD_eq_getElem _ _ hkl]
  exact List.getElem_dropLast ds k hk

theorem concatOffsets_eq (ds : List ℚ) (T : ℚ) :
    concatOffsets ds T = (List.range (ds.length - 1)).map (fun k => offsetRec ds T (k + 1)) := by
  rw [concatOffsets,
    concatOffsetsAux_eq_map T ds.dropLast (offsetRec ds T) 0 rfl ?_, List.length_dropLast]
  intro k hk
  rw [length_dropLast_getD ds k hk]
  rfl

theorem concatOffsetsAux_posGrow (T : ℚ) (l : List ℚ) :
    ∀ cur, 0 ≤ cur → (∀ d ∈ l, T < d) → ∀ o ∈ concatOffsetsAux T cur l, cur < o := by
  induction l with
  | nil => intro cur _ _ o ho; simp [concatOffsetsAux] at ho
  | cons d rest ih =>
    intro cur hcur hd o ho
    have hTd : T < d := hd d (by simp)
    have hstep : cur < max 0 (cur + d - T) := lt_of_lt_of_le (by linarith) (le_max_right _ _)
    simp only [concatOffsetsAux, List.mem_cons] at ho
    rcases ho with rfl | ho
    · exact hstep
    · exact lt_trans hstep
        (ih (max 0 (cur + d - T)) (le_max_left _ _) (fun x hx => hd x (by simp [hx])) o ho)

theorem concatOffsetsAux_pairwise (T : ℚ) (l : List ℚ) :
    ∀ cur, 0 ≤ cur → (∀ d ∈ l, T < d) → (concatOffsetsAux T cur l).Pairwise (· < ·) := by
  induction l with
  | nil => intro cur _ _; simp [concatOffsetsAux]
  | cons d rest ih =>
    intro cur hcur hd
    have hrest : ∀ x ∈ rest, T < x := fun x hx => hd x (by simp [hx])
    have h0 : (0 : ℚ) ≤ max 0 (cur + d - T) := le_max_left _ _
    simp only [concatOffsetsAux]
    exact List.Pairwise.cons
      (fun o ho => concatOffsetsAux_posGrow T rest _ h0 hrest o ho)
      (ih _ h0 hrest)

/-- C2: the crossfade offsets emitted by batch concatenation satisfy the
recurrence `offset_k = max(0, offset_(k-1) + d_(k-1) - T)` starting from
offset 0, and under the precondition that the transition duration is strictly
less than every clip duration the emitted offsets strictly increase. -/
theorem batch_offsets_recurrence_strict_mono (ds : List ℚ) (T : ℚ)
    (hT : ∀ d ∈ ds, T < d) :
    concatOffsets ds T = (List.range (ds.length - 1)).map (fun k => offsetRec ds T (k + 1)) ∧
      (concatOffsets ds T).Pairwise (· < ·) := by
  refine ⟨concatOffsets_eq ds T, ?_⟩
  rw [concatOffsets]
  exact concatOffsetsAux_pairwise T ds.dropLast 0 le_rfl
    (fun d hd => hT d (List.mem_of_mem_dropLast hd))

theorem batch_offsets_recurrence_strict_mono_witness :
    concatOffsets [6, 6, 5] 1 =
        (List.range 2).map (fun k => offsetRec [6, 6, 5] 1 (k + 1)) ∧
      (concatOffsets [6, 6, 5] 1).Pairwise (· < ·) :=
  batch_offsets_recurrence_strict_mono [6, 6, 5] 1 (by decide)

theorem chunksOfAux_length_le (n : Nat) (hn : 0 < n) :
    ∀ (fuel : Nat) (l : List α), ∀ c ∈ chunksOfAux n fuel l, c.length ≤ n := by
  intro fuel
  induction fuel with
  | zero => intro l c hc; simp [chunksOfAux] at hc
  | succ m ih =>
    intro l c hc
    match l with
    | [] => simp [chunksOfAux] at hc
    | x :: xs =>
      simp only [chunksOfAux, List.mem_cons] at hc
      rcases hc with rfl | hc2
      · rw [List.length_take]; exact min_le_left _ _
      · exact ih _ c hc2

/-- C3 (amended): the code partitions the rendered-clip sequence with the fixed
batch size 10, so for any thread count and any clip sequence no batch contains
more than 10 clips. -/
theorem batch_size_at_most_ten (threads : Nat) (l : List (String × ℚ))
    (c : List (String × ℚ)) (hc : c ∈ chunksOf 10 l) : c.length ≤ 10 :=
  chunksOfAux_length_le 10 (by omega) l.length l c hc

theorem batch_size_at_most_ten_witness :
    [(tempName 0, (5 : ℚ))] ∈ chunksOf 10 [(tempName 0, (5 : ℚ))] ∧
      ([(tempName 0, (5 : ℚ))] : List (String × ℚ)).length ≤ 10 :=
  ⟨by decide, batch_size_at_most_ten 1 [(tempName 0, (5 : ℚ))] _ (by decide)⟩

inductive Err where
  | validationError
  | notFoundError
  | engineError
  | permissionError
  deriving DecidableEq, Repr

/-- Outcome of one engine (ffmpeg) invocation: success with a non-empty output
file, a nonzero exit, or success that left a zero-length output file. -/
inductive EngineOutcome where
  | ok
  | fail
  | empty
  deriving DecidableEq, Repr

inductive EngineMode where
  | render
  | xfade (offsets : List ℚ)
  | concatDemux
  deriving DecidableEq, Repr

/-- Observable file-system actions of the pipeline.  `probe` is a read-only
metadata query; `engine` both invokes the transcoder and creates its output
file; `write` is a direct file write (the batch list file). -/
inductive Op where
  | probe (p : FPath)
  | write (p : FPath)
  | rename (src dst : FPath)
  | remove (p : FPath)
  | engine (mode : EngineMode) (inputs : List FPath) (output : FPath) (reencode : Bool)
  | mkdirOutputParent
  deriving DecidableEq, Repr

def Op.isEngine : Op → Bool
  | Op.engine _ _ _ _ => true
  | _ => false

/-- File system: the set of existing files with their sizes. -/
structure FS where
  files : List (FPath × Nat)
  deriving DecidableEq, Repr

def eraseAllFS (files : List (FPath × Nat)) (p : FPath) : List (FPath × Nat) :=
  files.filter (fun e => !(e.1 == p))

def writeFS (fs : FS) (p : FPath) (sz : Nat) : FS := ⟨(p, sz) :: eraseAllFS fs.files p⟩

def removeFS (fs : FS) (p : FPath) : FS := ⟨eraseAllFS fs.files p⟩

def lookupFS (fs : FS) (p : FPath) : Option Nat :=
  (fs.files.find? (fun e => e.1 == p)).map Prod.snd

def fsMemB (fs : FS) (p : FPath) : Bool := fs.files.any (fun e => e.1 == p)

/-- `os.rename`: move the file at `src` to `dst`, carrying its content. -/
def renameFS (fs : FS) (src dst : FPath) : FS :=
  match lookupFS fs src with
  | some sz => writeFS (removeFS fs src) dst sz
  | none => fs

def pathsOf (fs : FS) : List FPath := fs.files.map Prod.fst

/-- Result of one pipeline stage: outcome, file system, engine-call counter,
and the trace of actions the stage performed. -/
abbrev StepR (α : Type) : Type := Except Err α × FS × Nat × List Op

structure Config where
  resolution : Option String
  width : Option Nat
  height : Option Nat
  imageDuration : ℚ
  maxVideoDuration : ℚ
  blurRadius : ℚ
  zoomStart : ℚ
  zoomEnd : ℚ
  overlayScale : ℚ
  transitionDuration : ℚ
  threads : Nat
  deriving DecidableEq, Repr

/-- Resolution presets (src/assemble.py lines 38-43); an unknown preset raises
`ValueError`. -/
def get_resolution_dimensions (r : String) : Except Err (Nat × Nat) :=
  if r = "720p" then Except.ok (1280, 720)
  else if r = "1080p" then Except.ok (1920, 1080)
  else if r = "4k" then Except.ok (3840, 2160)
  else Except.error Err.validationError

/-- Python `x or default` on an optional integer: `None` and `0` are falsy. -/
def pyOrNat (x : Option Nat) (d : Nat) : Nat :=
  match x with
  | some v => if v = 0 then d else v
  | none => d

/-- Line 136: `args.resolution and get_resolution_dimensions(args.resolution)
or (args.width or 1280, args.height or 720)`.  A non-empty preset string is
truthy and the preset pair is always truthy, so a supplied preset wins and the
explicit width/height are never consulted; otherwise the Python `or` defaults
apply to width and height independently. -/
def resolveDims (resolution : Option String) (width height : Option Nat) :
    Except Err (Nat × Nat) :=
  match resolution with
  | some r =>
    if r = "" then Except.ok (pyOrNat width 1280, pyOrNat height 720)
    else get_resolution_dimensions r
  | none => Except.ok (pyOrNat width 1280, pyOrNat height 720)

/-- Aspect-ratio validation (lines 32-36): reject when `|w/h - 16/9| > 0.01`. -/
def validate_16_9 (w h : Nat) : Except Err Unit :=
  if |((w : ℚ) / (h : ℚ)) - 16 / 9| > 1 / 100 then Except.error Err.validationError
  else Except.ok ()

/-- Lines 136-137: resolve the canvas dimensions, then validate them. -/
def dimsStage (resolution : Option String) (width height : Option Nat) :
    Except Err (Nat × Nat) :=
  match resolveDims resolution width height with
  | Except.error e => Except.error e
  | Except.ok wh =>
    match validate_16_9 wh.1 wh.2 with
    | Except.error e => Except.error e
    | Except.ok _ => Except.ok wh

/-- The input directory contents at run start: each listed name exists with
size 1. -/
def initFS (listing : List String) : FS :=
  ⟨listing.map (fun n => (FPath.inp n, 1))⟩

/-- `process_file` applied in order to every scanned file (lines 83-126,
148-154): probe the asset (duration probe only for videos, dimension probe for
all), compute the clip duration, and render `temp_{idx:03d}.mp4` through the
engine; a nonzero engine exit raises `RuntimeError`. -/
def renderAll (cfg : Config) (probeDur : String → ℚ) (total : Nat) :
    List String → Nat → (Nat → EngineOutcome) → FS → Nat → StepR (List (String × ℚ))
  | [], _, _, fs, c => (Except.ok [], fs, c, [])
  | f :: rest, idx, oracle, fs, c =>
    let isImg := isImageName f
    let temp := tempName idx
    let d := clipDuration isImg cfg.imageDuration (probeDur f) cfg.maxVideoDuration
      cfg.transitionDuration idx total
    let probes : List Op :=
      if isImg then [Op.probe (FPath.inp f)] else [Op.probe (FPath.inp f), Op.probe (FPath.inp f)]
    let eng : Op := Op.engine EngineMode.render [FPath.inp f] (FPath.cwd temp) true
    match oracle c with
    | EngineOutcome.fail => (Except.error Err.engineError, fs, c + 1, probes ++ [eng])
    | EngineOutcome.ok =>
      match renderAll cfg probeDur total rest (idx + 1) oracle (writeFS fs (FPath.cwd temp) 1)
          (c + 1) with
      | (Except.error e, fs', c', tr) => (Except.error e, fs', c', probes ++ eng :: tr)
      | (Except.ok pairs, fs', c', tr) =>
        (Except.ok ((temp, d) :: pairs), fs', c', probes ++ eng :: tr)
    | EngineOutcome.empty =>
      match renderAll cfg probeDur total rest (idx + 1) oracle (writeFS fs (FPath.cwd temp) 0)
          (c + 1) with
      | (Except.error e, fs', c', tr) => (Except.error e, fs', c', probes ++ eng :: tr)
      | (Except.ok pairs, fs', c', tr) =>
        (Except.ok ((temp, d) :: pairs), fs', c', probes ++ eng :: tr)

/-- Temporary-file validation (lines 156-159): every rendered clip must exist
and be non-empty, otherwise `FileNotFoundError`. -/
def checkTemps (names : List String) (fs : FS) : Except Err Unit :=
  match names with
  | [] => Except.ok ()
  | n :: rest =>
    match lookupFS fs (FPath.cwd n) with
    | none => Except.error Err.notFoundError
    | some sz => if sz = 0 then Except.error Err.notFoundError else checkTemps rest fs

/-- `concatenate_batch` (lines 52-81): a single-clip batch is renamed to the
batch output with no engine call; otherwise one re-encoding crossfade
filter-graph invocation merges the whole batch, with the offsets of
`concatOffsets`. -/
def concatenate_batch (temps : List String) (ds : List ℚ) (T : ℚ) (output : String)
    (oracle : Nat → EngineOutcome) (fs : FS) (c : Nat) : StepR Unit :=
  match temps with
  | [t] => (Except.ok (), renameFS fs (FPath.cwd t) (FPath.cwd output), c,
      [Op.rename (FPath.cwd t) (FPath.cwd output)])
  | _ =>
    let eng : Op := Op.engine (EngineMode.xfade (concatOffsets ds T)) (temps.map FPath.cwd)
      (FPath.cwd output) true
    match oracle c with
    | EngineOutcome.fail => (Except.error Err.engineError, fs, c + 1, [eng])
    | EngineOutcome.ok => (Except.ok (), writeFS fs (FPath.cwd output) 1, c + 1, [eng])
    | EngineOutcome.empty => (Except.ok (), writeFS fs (FPath.cwd output) 0, c + 1, [eng])

/-- The batch loop of `assemble` (lines 161-169): concatenate each batch into
`batch_{batch_idx:03d}.mp4` in order. -/
def concatBatches (T : ℚ) :
    List (List (String × ℚ)) → Nat → (Nat → EngineOutcome) → FS → Nat → StepR (List String)
  | [], _, _, fs, c => (Except.ok [], fs, c, [])
  | b :: rest, bIdx, oracle, fs, c =>
    match concatenate_batch (b.map Prod.fst) (b.map Prod.snd) T (batchName bIdx) oracle fs c with
    | (Except.error e, fs', c', tr) => (Except.error e, fs', c', tr)
    | (Except.ok _, fs', c', tr) =>
      match concatBatches T rest (bIdx + 1) oracle fs' c' with
      | (Except.error e, fs'', c'', tr') => (Except.error e, fs'', c'', tr ++ tr')
      | (Except.ok outs, fs'', c'', tr') =>
        (Except.ok (batchName bIdx :: outs), fs'', c'', tr ++ tr')

/-- Final concatenation (lines 171-184): one batch segment is renamed to the
output path; otherwise the full list of batch segments is written to
`batch_list.txt` and handed to a single re-encoding concat-demuxer engine
invocation, and the list file is removed only on success. -/
def finalConcat (batchFiles : List String) (oracle : Nat → EngineOutcome) (fs : FS)
    (c : Nat) : StepR Unit :=
  match batchFiles with
  | [b] => (Except.ok (), renameFS fs (FPath.cwd b) FPath.outp, c,
      [Op.rename (FPath.cwd b) FPath.outp])
  | _ =>
    let fs1 := writeFS fs (FPath.cwd batchListName) 1
    let tr : List Op := [Op.write (FPath.cwd batchListName),
      Op.engine EngineMode.concatDemux (batchFiles.map FPath.cwd) FPath.outp true]
    match oracle c with
    | EngineOutcome.fail => (Except.error Err.engineError, fs1, c + 1, tr)
    | EngineOutcome.ok =>
      (Except.ok (), removeFS (writeFS fs1 FPath.outp 1) (FPath.cwd batchListName), c + 1,
        tr ++ [Op.remove (FPath.cwd batchListName)])
    | EngineOutcome.empty =>
      (Except.ok (), removeFS (writeFS fs1 FPath.outp 0) (FPath.cwd batchListName), c + 1,
        tr ++ [Op.remove (FPath.cwd batchListName)])

/-- The success-path cleanup loop (lines 186-189): remove every temporary clip
and batch segment file that still exists. -/
def cleanup (names : List String) (fs : FS) : FS × List Op :=
  match names with
  | [] => (fs, [])
  | n :: rest =>
    if fsMemB fs (FPath.cwd n) then
      let r := cleanup rest (removeFS fs (FPath.cwd n))
      (r.1, Op.remove (FPath.cwd n) :: r.2)
    else cleanup rest fs

/-- The `assemble` entry point (src/assemble.py lines 128-190): argument
validation, dimension resolution and validation, output-directory creation,
scan and sort, in-order rendering, batch concatenation in chunks of 10, final
concatenation, and the success-path cleanup loop. -/
def assembleRun (cfg : Config) (listing : List String) (probeDur : String → ℚ)
    (oracle : Nat → EngineOutcome) : StepR String :=
  if 0 < cfg.overlayScale ∧ cfg.overlayScale ≤ 1 then
    if 0 ≤ cfg.transitionDuration ∧
        cfg.transitionDuration < min cfg.imageDuration cfg.maxVideoDuration then
      match dimsStage cfg.resolution cfg.width cfg.height with
      | Except.error e => (Except.error e, initFS listing, 0, [])
      | Except.ok _wh =>
        let files := scanFiles listing
        if files.isEmpty then
          (Except.error Err.notFoundError, initFS listing, 0, [Op.mkdirOutputParent])
        else
          match renderAll cfg probeDur files.length files 0 oracle (initFS listing) 0 with
          | (Except.error e, fs1, c1, tr1) =>
            (Except.error e, fs1, c1, Op.mkdirOutputParent :: tr1)
          | (Except.ok pairs, fs1, c1, tr1) =>
            match checkTemps (pairs.map Prod.fst) fs1 with
            | Except.error e => (Except.error e, fs1, c1, Op.mkdirOutputParent :: tr1)
            | Except.ok _ =>
              match concatBatches cfg.transitionDuration (chunksOf 10 pairs) 0 oracle fs1 c1 with
              | (Except.error e, fs2, c2, tr2) =>
                (Except.error e, fs2, c2, Op.mkdirOutputParent :: (tr1 ++ tr2))
              | (Except.ok batchFiles, fs2, c2, tr2) =>
                match finalConcat batchFiles oracle fs2 c2 with
                | (Except.error e, fs3, c3, tr3) =>
                  (Except.error e, fs3, c3, Op.mkdirOutputParent :: (tr1 ++ tr2 ++ tr3))
                | (Except.ok _, fs3, c3, tr3) =>
                  let cl := cleanup (pairs.map Prod.fst ++ batchFiles) fs3
                  (Except.ok ("done"), cl.1, c3,
                    Op.mkdirOutputParent :: (tr1 ++ tr2 ++ tr3 ++ cl.2))
    else (Except.error Err.validationError, initFS listing, 0, [])
  else (Except.error Err.validationError, initFS listing, 0, [])

/-- The per-asset duration plan: the durations `process_file` computes, in
asset order, starting at a given index. -/
def planDurations (cfg : Config) (probeDur : String → ℚ) (total : Nat) :
    List String → Nat → List ℚ
  | [], _ => []
  | f :: rest, idx =>
    clipDuration (isImageName f) cfg.imageDuration (probeDur f) cfg.maxVideoDuration
        cfg.transitionDuration idx total ::
      planDurations cfg probeDur total rest (idx + 1)

theorem renderAll_snd (cfg : Config) (probeDur : String → ℚ) (total : Nat) :
    ∀ (files : List String) (start : Nat) (oracle : Nat → EngineOutcome) (fs : FS) (c : Nat)
      (pairs : List (String × ℚ)) (fs' : FS) (c' : Nat) (tr : List Op),
      renderAll cfg probeDur total files start oracle fs c = (Except.ok pairs, fs', c', tr) →
      pairs.map Prod.snd = planDurations cfg probeDur total files start := by
  intro files
  induction files with
  | nil =>
    intro start oracle fs c pairs fs' c' tr h
    simp only [renderAll, Prod.mk.injEq, Except.ok.injEq] at h
    rw [← h.1]
    rfl
  | cons f rest ih =>
    intro start oracle fs c pairs fs' c' tr h
    simp only [renderAll] at h
    cases ho : oracle c <;> simp only [ho] at h
    · rcases hr : renderAll cfg probeDur total rest (start + 1) oracle
          (writeFS fs (FPath.cwd (tempName start)) 1) (c + 1) with ⟨res1, fsr, cr, trr⟩
      rw [hr] at h
      cases res1 with
      | error e => simp at h
      | ok pairs1 =>
        simp only [Prod.mk.injEq, Except.ok.injEq] at h
        rw [← h.1, List.map_cons, ih (start + 1) oracle _ (c + 1) pairs1 fsr cr trr hr]
        rfl
    · simp at h
    · rcases hr : renderAll cfg probeDur total rest (start + 1) oracle
          (writeFS fs (FPath.cwd (tempName start)) 0) (c + 1) with ⟨res1, fsr, cr, trr⟩
      rw [hr] at h
      cases res1 with
      | error e => simp at h
      | ok pairs1 =>
        simp only [Prod.mk.injEq, Except.ok.injEq] at h
        rw [← h.1, List.map_cons, ih (start + 1) oracle _ (c + 1) pairs1 fsr cr trr hr]
        rfl

theorem planDurations_image_only (cfg : Config) (probeDur : String → ℚ) (total : Nat) :
    ∀ (files : List String) (start : Nat), (∀ f ∈ files, isImageName f = true) →
      planDurations cfg probeDur total files start =
        (List.range files.length).map
          (fun i => if start + i < total - 1 then
            cfg.imageDuration + cfg.transitionDuration else cfg.imageDuration) := by
  intro files
  induction files with
  | nil => intro start _; rfl
  | cons f rest ih =>
    intro start himg
    have hf : isImageName f = true := himg f (by simp)
    simp only [planDurations, clipDuration, hf, if_true, List.length_cons,
      List.range_succ_eq_map, List.map_cons, List.map_map]
    rw [ih (start + 1) (fun g hg => himg g (by simp [hg]))]
    congr 1
    apply List.map_congr_left
    intro i hi
    have h2 : start + 1 + i = start + (i + 1) := by omega
    simp [Function.comp, h2]

/-- C1: over image-only assets with image duration D and transition duration T
from a valid configuration (0 ≤ T < D), the per-clip durations computed by the
renderer are D + T for every asset with index below N - 1 and exactly D for
the last asset. -/
theorem duration_plan_image_only (cfg : Config) (probeDur : String → ℚ)
    (files : List String) (oracle : Nat → EngineOutcome) (fs : FS) (c : Nat)
    (pairs : List (String × ℚ)) (fs' : FS) (c' : Nat) (tr : List Op)
    (himg : ∀ f ∈ files, isImageName f = true)
    (hT0 : 0 ≤ cfg.transitionDuration)
    (hTD : cfg.transitionDuration < cfg.imageDuration)
    (hrun : renderAll cfg probeDur files.length files 0 oracle fs c =
      (Except.ok pairs, fs', c', tr)) :
    pairs.map Prod.snd =
      (List.range files.length).map
        (fun i => if i < files.length - 1 then
          cfg.imageDuration + cfg.transitionDuration else cfg.imageDuration) := by
  rw [renderAll_snd cfg probeDur files.length files 0 oracle fs c pairs fs' c' tr hrun,
    planDurations_image_only cfg probeDur files.length files 0 himg]
  apply List.map_congr_left
  intro i _
  simp

/-- A valid configuration: the CLI defaults of `main` with overlay scale 1. -/
def cfgA : Config :=
  { resolution := none, width := none, height := none, imageDuration := 5,
    maxVideoDuration := 10, blurRadius := 20, zoomStart := 1, zoomEnd := 2,
    overlayScale := 1, transitionDuration := 1, threads := 4 }

def orcOk : Nat → EngineOutcome := fun _ => EngineOutcome.ok

/-- Engine oracle whose third invocation (index 2) fails: with two assets the
two renders succeed and the batch crossfade invocation fails. -/
def orcFailAt2 : Nat → EngineOutcome :=
  fun c => if c < 2 then EngineOutcome.ok else EngineOutcome.fail

def listingThree : List String := ["a.jpg", "b.jpg", "c.jpg"]

def listingEleven : List String :=
  ["a01.jpg", "a02.jpg", "a03.jpg", "a04.jpg", "a05.jpg", "a06.jpg", "a07.jpg",
   "a08.jpg", "a09.jpg", "a10.jpg", "a11.jpg"]

unseal Rat.add Rat.sub Rat.mul Rat.inv in
theorem duration_plan_image_only_witness :
    ([(tempName 0, (6 : ℚ)), (tempName 1, (6 : ℚ)), (tempName 2, (5 : ℚ))] :
        List (String × ℚ)).map Prod.snd =
      (List.range listingThree.length).map
        (fun i => if i < listingThree.length - 1 then
          cfgA.imageDuration + cfgA.transitionDuration else cfgA.imageDuration) :=
  duration_plan_image_only cfgA (fun _ => 0) listingThree orcOk (initFS listingThree) 0
    [(tempName 0, 6), (tempName 1, 6), (tempName 2, 5)]
    (renderAll cfgA (fun _ => 0) listingThree.length listingThree 0 orcOk
      (initFS listingThree) 0).2.1
    (renderAll cfgA (fun _ => 0) listingThree.length listingThree 0 orcOk
      (initFS listingThree) 0).2.2.1
    (renderAll cfgA (fun _ => 0) listingThree.length listingThree 0 orcOk
      (initFS listingThree) 0).2.2.2
    (by decide) (by decide) (by decide) (by decide)

/-- C6: a configuration whose overlay scale lies outside (0, 1] fails with a
validation error raised before anything happens: empty action trace, zero
engine invocations, and the file system left exactly as it started. -/
theorem overlay_scale_validation_first (cfg : Config) (listing : List String)
    (probeDur : String → ℚ) (oracle : Nat → EngineOutcome)
    (hs : ¬(0 < cfg.overlayScale ∧ cfg.overlayScale ≤ 1)) :
    assembleRun cfg listing probeDur oracle =
      (Except.error Err.validationError, initFS listing, 0, []) := by
  unfold assembleRun
  rw [if_neg hs]

def cfgBadScale : Config := { cfgA with overlayScale := 3 / 2 }

unseal Rat.add Rat.sub Rat.mul Rat.inv in
theorem overlay_scale_validation_first_witness :
    assembleRun cfgBadScale ["a.jpg"] (fun _ => 0) orcOk =
      (Except.error Err.validationError, initFS ["a.jpg"], 0, []) :=
  overlay_scale_validation_first cfgBadScale ["a.jpg"] (fun _ => 0) orcOk (by decide)

theorem lookupFS_writeFS_self (fs : FS) (p : FPath) (sz : Nat) :
    lookupFS (writeFS fs p sz) p = some sz := by
  simp [lookupFS, writeFS, List.find?_cons]

/-- C7: a batch of exactly one clip performs no engine invocation at all: the
clip file is renamed to the batch output path, the engine-call counter is
untouched, and the clip's recorded content moves intact to the output name. -/
theorem single_clip_batch_rename_only (t output : String) (ds : List ℚ) (T : ℚ)
    (oracle : Nat → EngineOutcome) (fs : FS) (c : Nat) (sz : Nat)
    (hex : lookupFS fs (FPath.cwd t) = some sz) :
    concatenate_batch [t] ds T output oracle fs c =
        (Except.ok (), renameFS fs (FPath.cwd t) (FPath.cwd output), c,
          [Op.rename (FPath.cwd t) (FPath.cwd output)]) ∧
      (∀ op ∈ (concatenate_batch [t] ds T output oracle fs c).2.2.2, op.isEngine = false) ∧
      lookupFS (concatenate_batch [t] ds T output oracle fs c).2.1 (FPath.cwd output) =
        some sz := by
  refine ⟨rfl, ?_, ?_⟩
  · intro op hop
    simp only [concatenate_batch, List.mem_singleton] at hop
    subst hop
    rfl
  · simp only [concatenate_batch, renameFS, hex]
    exact lookupFS_writeFS_self _ _ _

theorem single_clip_batch_rename_only_witness :
    concatenate_batch [tempName 0] [5] 1 (batchName 0) orcOk
        (writeFS (initFS []) (FPath.cwd (tempName 0)) 1) 5 =
      (Except.ok (), renameFS (writeFS (initFS []) (FPath.cwd (tempName 0)) 1)
          (FPath.cwd (tempName 0)) (FPath.cwd (batchName 0)), 5,
        [Op.rename (FPath.cwd (tempName 0)) (FPath.cwd (batchName 0))]) :=
  (single_clip_batch_rename_only (tempName 0) (batchName 0) [5] 1 orcOk
    (writeFS (initFS []) (FPath.cwd (tempName 0)) 1) 5 1 (by decide)).1

def Op.isRenameToOut : Op → Bool
  | Op.rename _ FPath.outp => true
  | _ => false

/-- C4 (amended): with two or more batch segments the final output is produced
by one re-encoding concat-demuxer engine invocation over the full segment list
at once, fed through the batch list file which is written beforehand and
removed on success; no batch segment is ever moved to the output and there is
no pair-wise folding.  Only a single-segment run is folded by a rename. -/
theorem final_concat_single_call_shape (b1 b2 : String) (rest : List String)
    (oracle : Nat → EngineOutcome) (fs : FS) (c : Nat)
    (hok : oracle c = EngineOutcome.ok) :
    finalConcat (b1 :: b2 :: rest) oracle fs c =
      (Except.ok (),
        removeFS (writeFS (writeFS fs (FPath.cwd batchListName) 1) FPath.outp 1)
          (FPath.cwd batchListName), c + 1,
        [Op.write (FPath.cwd batchListName),
         Op.engine EngineMode.concatDemux ((b1 :: b2 :: rest).map FPath.cwd) FPath.outp true,
         Op.remove (FPath.cwd batchListName)]) := by
  simp only [finalConcat, hok]
  rfl

theorem final_concat_single_call_shape_witness :
    finalConcat [batchName 0, batchName 1] orcOk (initFS []) 0 =
      (Except.ok (),
        removeFS (writeFS (writeFS (initFS []) (FPath.cwd batchListName) 1) FPath.outp 1)
          (FPath.cwd batchListName), 1,
        [Op.write (FPath.cwd batchListName),
         Op.engine EngineMode.concatDemux ([batchName 0, batchName 1].map FPath.cwd)
           FPath.outp true,
         Op.remove (FPath.cwd batchListName)]) :=
  final_concat_single_call_shape (batchName 0) (batchName 1) [] orcOk (initFS []) 0 rfl

unseal Rat.add Rat.sub Rat.mul Rat.inv in
/-- C4 counterexample: the eleven-image run produces two batch segments, yet
its trace contains no rename of any batch segment to the output path (so the
first segment never becomes the initial output by a move), and the final
output is instead produced by a single re-encoding concat-demuxer invocation
taking both segments at once. -/
theorem final_concat_no_incremental_fold_counterexample :
    (assembleRun cfgA listingEleven (fun _ => 0) orcOk).1 = Except.ok ("done") ∧
      ((assembleRun cfgA listingEleven (fun _ => 0) orcOk).2.2.2.all
        (fun op => !op.isRenameToOut)) = true ∧
      Op.engine EngineMode.concatDemux [FPath.cwd (batchName 0), FPath.cwd (batchName 1)]
          FPath.outp true ∈ (assembleRun cfgA listingEleven (fun _ => 0) orcOk).2.2.2 := by
  refine ⟨?_, ?_, ?_⟩ <;> decide

theorem mem_pathsOf_writeFS {fs : FS} {p q : FPath} {sz : Nat}
    (h : q ∈ pathsOf (writeFS fs p sz)) : q = p ∨ q ∈ pathsOf fs := by
  simp only [pathsOf, writeFS, List.map_cons, List.mem_cons] at h
  rcases h with h | h
  · exact Or.inl h
  · right
    obtain ⟨e, he, rfl⟩ := List.mem_map.mp h
    exact List.mem_map_of_mem _ (List.mem_of_mem_filter he)

theorem mem_pathsOf_removeFS {fs : FS} {p q : FPath}
    (h : q ∈ pathsOf (removeFS fs p)) : q ≠ p ∧ q ∈ pathsOf fs := by
  simp only [pathsOf, removeFS, eraseAllFS] at h
  obtain ⟨e, he, rfl⟩ := List.mem_map.mp h
  have hpred := List.of_mem_filter he
  simp only [Bool.not_eq_eq_eq_not, Bool.not_true, beq_eq_false_iff_ne] at hpred
  exact ⟨hpred, List.mem_map_of_mem _ (List.mem_of_mem_filter he)⟩

theorem mem_pathsOf_renameFS {fs : FS} {src dst q : FPath}
    (h : q ∈ pathsOf (renameFS fs src dst)) : q = dst ∨ q ∈ pathsOf fs := by
  unfold renameFS at h
  cases hl : lookupFS fs src with
  | none => rw [hl] at h; exact Or.inr h
  | some sz =>
    rw [hl] at h
    rcases mem_pathsOf_writeFS h with h2 | h2
    · exact Or.inl h2
    · exact Or.inr (mem_pathsOf_removeFS h2).2

theorem not_mem_pathsOf_of_fsMemB_false {fs : FS} {p : FPath}
    (h : fsMemB fs p = false) : p ∉ pathsOf fs := by
  intro hp
  obtain ⟨e, he, rfl⟩ := List.mem_map.mp hp
  have : fs.files.any (fun x => x.1 == e.1) = true :=
    List.any_eq_true.mpr ⟨e, he, by simp⟩
  rw [fsMemB] at h
  rw [h] at this
  exact Bool.false_ne_true this

theorem renderAll_paths (cfg : Config) (probeDur : String → ℚ) (total : Nat) :
    ∀ (files : List String) (start : Nat) (oracle : Nat → EngineOutcome) (fs : FS) (c : Nat)
      (pairs : List (String × ℚ)) (fs' : FS) (c' : Nat) (tr : List Op),
      renderAll cfg probeDur total files start oracle fs c = (Except.ok pairs, fs', c', tr) →
      ∀ q ∈ pathsOf fs', q ∈ pathsOf fs ∨ ∃ pr ∈ pairs, q = FPath.cwd pr.1 := by
  intro files
  induction files with
  | nil =>
    intro start oracle fs c pairs fs' c' tr h q hq
    simp only [renderAll, Prod.mk.injEq, Except.ok.injEq] at h
    rw [← h.2.1] at hq
    exact Or.inl hq
  | cons f rest ih =>
    intro start oracle fs c pairs fs' c' tr h q hq
    simp only [renderAll] at h
    cases ho : oracle c <;> simp only [ho] at h
    case fail => simp at h
    case ok =>
      rcases hr : renderAll cfg probeDur total rest (start + 1) oracle
          (writeFS fs (FPath.cwd (tempName start)) 1) (c + 1) with ⟨res1, fsr, cr, trr⟩
      rw [hr] at h
      cases res1 with
      | error e => simp at h
      | ok pairs1 =>
        simp only [Prod.mk.injEq, Except.ok.injEq] at h
        rw [← h.2.1] at hq
        rcases ih (start + 1) oracle _ (c + 1) pairs1 fsr cr trr hr q hq with h2 | ⟨pr, hpr, rfl⟩
        · rcases mem_pathsOf_writeFS h2 with h3 | h3
          · exact Or.inr ⟨(tempName start,
              clipDuration (isImageName f) cfg.imageDuration (probeDur f) cfg.maxVideoDuration
                cfg.transitionDuration start total), by rw [← h.1]; simp, h3⟩
          · exact Or.inl h3
        · exact Or.inr ⟨pr, by rw [← h.1]; simp [hpr], rfl⟩
    case empty =>
      rcases hr : renderAll cfg probeDur total rest (start + 1) oracle
          (writeFS fs (FPath.cwd (tempName start)) 0) (c + 1) with ⟨res1, fsr, cr, trr⟩
      rw [hr] at h
      cases res1 with
      | error e => simp at h
      | ok pairs1 =>
        simp only [Prod.mk.injEq, Except.ok.injEq] at h
        rw [← h.2.1] at hq
        rcases ih (start + 1) oracle _ (c + 1) pairs1 fsr cr trr hr q hq with h2 | ⟨pr, hpr, rfl⟩
        · rcases mem_pathsOf_writeFS h2 with h3 | h3
          · exact Or.inr ⟨(tempName start,
              clipDuration (isImageName f) cfg.imageDuration (probeDur f) cfg.maxVideoDuration
                cfg.transitionDuration start total), by rw [← h.1]; simp, h3⟩
          · exact Or.inl h3
        · exact Or.inr ⟨pr, by rw [← h.1]; simp [hpr], rfl⟩

theorem concatenate_batch_paths (temps : List String) (ds : List ℚ) (T : ℚ) (output : String)
    (oracle : Nat → EngineOutcome) (fs : FS) (c : Nat) (u : Unit) (fs' : FS) (c' : Nat)
    (tr : List Op)
    (h : concatenate_batch temps ds T output oracle fs c = (Except.ok u, fs', c', tr)) :
    ∀ q ∈ pathsOf fs', q = FPath.cwd output ∨ q ∈ pathsOf fs := by
  match temps with
  | [t] =>
    simp only [concatenate_batch, Prod.mk.injEq, Except.ok.injEq] at h
    intro q hq
    rw [← h.2.1] at hq
    exact mem_pathsOf_renameFS hq
  | [] =>
    simp only [concatenate_batch] at h
    cases ho : oracle c <;> simp only [ho] at h
    case fail => simp at h
    case ok =>
      simp only [Prod.mk.injEq, Except.ok.injEq] at h
      intro q hq
      rw [← h.2.1] at hq
      exact (mem_pathsOf_writeFS hq).imp id id
    case empty =>
      simp only [Prod.mk.injEq, Except.ok.injEq] at h
      intro q hq
      rw [← h.2.1] at hq
      exact (mem_pathsOf_writeFS hq).imp id id
  | t1 :: t2 :: ts =>
    simp only [concatenate_batch] at h
    cases ho : oracle c <;> simp only [ho] at h
    case fail => simp at h
    case ok =>
      simp only [Prod.mk.injEq, Except.ok.injEq] at h
      intro q hq
      rw [← h.2.1] at hq
      exact (mem_pathsOf_writeFS hq).imp id id
    case empty =>
      simp only [Prod.mk.injEq, Except.ok.injEq] at h
      intro q hq
      rw [← h.2.1] at hq
      exact (mem_pathsOf_writeFS hq).imp id id

theorem concatBatches_paths (T : ℚ) :
    ∀ (batches : List (List (String × ℚ))) (bIdx : Nat) (oracle : Nat → EngineOutcome)
      (fs : FS) (c : Nat) (outs : List String) (fs' : FS) (c' : Nat) (tr : List Op),
      concatBatches T batches bIdx oracle fs c = (Except.ok outs, fs', c', tr) →
      ∀ q ∈ pathsOf fs', (∃ b ∈ outs, q = FPath.cwd b) ∨ q ∈ pathsOf fs := by
  intro batches
  induction batches with
  | nil =>
    intro bIdx oracle fs c outs fs' c' tr h q hq
    simp only [concatBatches, Prod.mk.injEq, Except.ok.injEq] at h
    rw [← h.2.1] at hq
    exact Or.inr hq
  | cons b rest ih =>
    intro bIdx oracle fs c outs fs' c' tr h q hq
    simp only [concatBatches] at h
    rcases h1 : concatenate_batch (b.map Prod.fst) (b.map Prod.snd) T (batchName bIdx)
        oracle fs c with ⟨res1, fs1, c1, tr1⟩
    rw [h1] at h
    cases res1 with
    | error e => simp at h
    | ok u =>
      simp only [] at h
      rcases h2 : concatBatches T rest (bIdx + 1) oracle fs1 c1 with ⟨res2, fs2, c2, tr2⟩
      rw [h2] at h
      cases res2 with
      | error e => simp at h
      | ok outs2 =>
        simp only [Prod.mk.injEq, Except.ok.injEq] at h
        rw [← h.2.1] at hq
        rcases ih (bIdx + 1) oracle fs1 c1 outs2 fs2 c2 tr2 h2 q hq with ⟨bb, hbb, rfl⟩ | hfs1
        · exact Or.inl ⟨bb, by rw [← h.1]; simp [hbb], rfl⟩
        · rcases concatenate_batch_paths _ _ _ _ _ _ _ _ _ _ _ h1 q hfs1 with h3 | h3
          · exact Or.inl ⟨batchName bIdx, by rw [← h.1]; simp, h3⟩
          · exact Or.inr h3

theorem finalConcat_paths (batchFiles : List String) (oracle : Nat → EngineOutcome)
    (fs : FS) (c : Nat) (u : Unit) (fs' : FS) (c' : Nat) (tr : List Op)
    (h : finalConcat batchFiles oracle fs c = (Except.ok u, fs', c', tr)) :
    ∀ q ∈ pathsOf fs', q = FPath.outp ∨ q ∈ pathsOf fs := by
  have key : ∀ (sz : Nat) (q : FPath),
      q ∈ pathsOf (removeFS (writeFS (writeFS fs (FPath.cwd batchListName) 1) FPath.outp sz)
        (FPath.cwd batchListName)) → q = FPath.outp ∨ q ∈ pathsOf fs := by
    intro sz q hq
    obtain ⟨hne, hq2⟩ := mem_pathsOf_removeFS hq
    rcases mem_pathsOf_writeFS hq2 with h3 | h3
    · exact Or.inl h3
    · rcases mem_pathsOf_writeFS h3 with h4 | h4
      · exact absurd h4 hne
      · exact Or.inr h4
  match batchFiles with
  | [b] =>
    simp only [finalConcat, Prod.mk.injEq, Except.ok.injEq] at h
    intro q hq
    rw [← h.2.1] at hq
    exact mem_pathsOf_renameFS hq
  | [] =>
    simp only [finalConcat] at h
    cases ho : oracle c <;> simp only [ho] at h
    case fail => simp at h
    case ok =>
      simp only [Prod.mk.injEq, Except.ok.injEq] at h
      intro q hq
      rw [← h.2.1] at hq
      exact key 1 q hq
    case empty =>
      simp only [Prod.mk.injEq, Except.ok.injEq] at h
      intro q hq
      rw [← h.2.1] at hq
      exact key 0 q hq
  | b1 :: b2 :: bs =>
    simp only [finalConcat] at h
    cases ho : oracle c <;> simp only [ho] at h
    case fail => simp at h
    case ok =>
      simp only [Prod.mk.injEq, Except.ok.injEq] at h
      intro q hq
      rw [← h.2.1] at hq
      exact key 1 q hq
    case empty =>
      simp only [Prod.mk.injEq, Except.ok.injEq] at h
      intro q hq
      rw [← h.2.1] at hq
      exact key 0 q hq

theorem cleanup_paths : ∀ (names : List String) (fs : FS) (q : FPath),
    q ∈ pathsOf (cleanup names fs).1 →
      q ∈ pathsOf fs ∧ ∀ n ∈ names, q ≠ FPath.cwd n := by
  intro names
  induction names with
  | nil => intro fs q hq; exact ⟨hq, by simp⟩
  | cons n rest ih =>
    intro fs q hq
    simp only [cleanup] at hq
    by_cases hmem : fsMemB fs (FPath.cwd n) = true
    · rw [if_pos hmem] at hq
      obtain ⟨h1, h2⟩ := ih (removeFS fs (FPath.cwd n)) q hq
      obtain ⟨hne, hfs⟩ := mem_pathsOf_removeFS h1
      refine ⟨hfs, ?_⟩
      intro m hm
      rcases List.mem_cons.mp hm with rfl | hm2
      · exact hne
      · exact h2 m hm2
    · rw [if_neg hmem] at hq
      obtain ⟨h1, h2⟩ := ih fs q hq
      refine ⟨h1, ?_⟩
      intro m hm
      rcases List.mem_cons.mp hm with rfl | hm2
      · intro hqe
        rw [hqe] at h1
        exact not_mem_pathsOf_of_fsMemB_false (Bool.not_eq_true _ ▸ hmem) h1
      · exact h2 m hm2

theorem mem_pathsOf_initFS {listing : List String} {q : FPath}
    (h : q ∈ pathsOf (initFS listing)) : q.isCwd = false := by
  simp only [pathsOf, initFS, List.map_map] at h
  obtain ⟨n, _, rfl⟩ := List.mem_map.mp h
  rfl

theorem outp_not_mem_initFS (listing : List String) :
    FPath.outp ∉ pathsOf (initFS listing) := by
  intro h
  simp only [pathsOf, initFS, List.map_map] at h
  obtain ⟨n, -, he⟩ := List.mem_map.mp h
  exact FPath.noConfusion he

theorem renderAll_out_free (cfg : Config) (probeDur : String → ℚ) (total : Nat) :
    ∀ (files : List String) (start : Nat) (oracle : Nat → EngineOutcome) (fs : FS) (c : Nat),
      FPath.outp ∉ pathsOf fs →
      FPath.outp ∉ pathsOf (renderAll cfg probeDur total files start oracle fs c).2.1 := by
  intro files
  induction files with
  | nil => intro start oracle fs c hout; exact hout
  | cons f rest ih =>
    intro start oracle fs c hout
    have hw : ∀ sz, FPath.outp ∉ pathsOf (writeFS fs (FPath.cwd (tempName start)) sz) := by
      intro sz hmem
      rcases mem_pathsOf_writeFS hmem with h | h
      · exact FPath.noConfusion h
      · exact hout h
    simp only [renderAll]
    cases ho : oracle c
    case fail => exact hout
    case ok =>
      rcases hr : renderAll cfg probeDur total rest (start + 1) oracle
          (writeFS fs (FPath.cwd (tempName start)) 1) (c + 1) with ⟨res1, fsr, cr, trr⟩
      have hrec := ih (start + 1) oracle (writeFS fs (FPath.cwd (tempName start)) 1) (c + 1)
        (hw 1)
      rw [hr] at hrec
      cases res1 <;> exact hrec
    case empty =>
      rcases hr : renderAll cfg probeDur total rest (start + 1) oracle
          (writeFS fs (FPath.cwd (tempName start)) 0) (c + 1) with ⟨res1, fsr, cr, trr⟩
      have hrec := ih (start + 1) oracle (writeFS fs (FPath.cwd (tempName start)) 0) (c + 1)
        (hw 0)
      rw [hr] at hrec
      cases res1 <;> exact hrec

theorem concatenate_batch_out_free (temps : List String) (ds : List ℚ) (T : ℚ)
    (output : String) (oracle : Nat → EngineOutcome) (fs : FS) (c : Nat)
    (hout : FPath.outp ∉ pathsOf fs) :
    FPath.outp ∉ pathsOf (concatenate_batch temps ds T output oracle fs c).2.1 := by
  have hw : ∀ sz, FPath.outp ∉ pathsOf (writeFS fs (FPath.cwd output) sz) := by
    intro sz hmem
    rcases mem_pathsOf_writeFS hmem with h | h
    · exact FPath.noConfusion h
    · exact hout h
  match temps with
  | [t] =>
    simp only [concatenate_batch]
    intro hmem
    rcases mem_pathsOf_renameFS hmem with h | h
    · exact FPath.noConfusion h
    · exact hout h
  | [] =>
    simp only [concatenate_batch]
    cases ho : oracle c
    case fail => exact hout
    case ok => exact hw 1
    case empty => exact hw 0
  | t1 :: t2 :: ts =>
    simp only [concatenate_batch]
    cases ho : oracle c
    case fail => exact hout
    case ok => exact hw 1
    case empty => exact hw 0

theorem concatBatches_out_free (T : ℚ) :
    ∀ (batches : List (List (String × ℚ))) (bIdx : Nat) (oracle : Nat → EngineOutcome)
      (fs : FS) (c : Nat), FPath.outp ∉ pathsOf fs →
      FPath.outp ∉ pathsOf (concatBatches T batches bIdx oracle fs c).2.1 := by
  intro batches
  induction batches with
  | nil => intro bIdx oracle fs c hout; exact hout
  | cons b rest ih =>
    intro bIdx oracle fs c hout
    simp only [concatBatches]
    rcases h1 : concatenate_batch (b.map Prod.fst) (b.map Prod.snd) T (batchName bIdx)
        oracle fs c with ⟨res1, fs1, c1, tr1⟩
    have hfs1 := concatenate_batch_out_free (b.map Prod.fst) (b.map Prod.snd) T
      (batchName bIdx) oracle fs c hout
    rw [h1] at hfs1
    cases res1 with
    | error e => exact hfs1
    | ok u =>
      simp only []
      rcases h2 : concatBatches T rest (bIdx + 1) oracle fs1 c1 with ⟨res2, fs2, c2, tr2⟩
      have hfs2 := ih (bIdx + 1) oracle fs1 c1 hfs1
      rw [h2] at hfs2
      cases res2 <;> exact hfs2

theorem finalConcat_out_free_error (batchFiles : List String) (oracle : Nat → EngineOutcome)
    (fs : FS) (c : Nat) (e : Err) (fs' : FS) (c' : Nat) (tr : List Op)
    (h : finalConcat batchFiles oracle fs c = (Except.error e, fs', c', tr))
    (hout : FPath.outp ∉ pathsOf fs) : FPath.outp ∉ pathsOf fs' := by
  have hw : FPath.outp ∉ pathsOf (writeFS fs (FPath.cwd batchListName) 1) := by
    intro hmem
    rcases mem_pathsOf_writeFS hmem with hh | hh
    · exact FPath.noConfusion hh
    · exact hout hh
  match batchFiles with
  | [b] => simp [finalConcat] at h
  | [] =>
    simp only [finalConcat] at h
    cases ho : oracle c <;> simp only [ho] at h
    case fail =>
      simp only [Prod.mk.injEq, Except.error.injEq] at h
      rw [← h.2.1]
      exact hw
    case ok => simp at h
    case empty => simp at h
  | b1 :: b2 :: bs =>
    simp only [finalConcat] at h
    cases ho : oracle c <;> simp only [ho] at h
    case fail =>
      simp only [Prod.mk.injEq, Except.error.injEq] at h
      rw [← h.2.1]
      exact hw
    case ok => simp at h
    case empty => simp at h

/-- C5 (amended): on every successful exit of a run all temporary artifacts
(rendered clip files and batch segment files, along with the batch list
file) are removed — the final file system holds no working-directory file at
all — and on every failure exit no partial output file is left at the
configured output path.  However, on failure exits after rendering has begun
the cleanup loop is not reached and the temporary clip and batch files are
not removed. -/
theorem cleanup_on_success (cfg : Config) (listing : List String) (probeDur : String → ℚ)
    (oracle : Nat → EngineOutcome) :
    (∀ (msg : String) (fs' : FS) (c' : Nat) (tr : List Op),
        assembleRun cfg listing probeDur oracle = (Except.ok msg, fs', c', tr) →
        ∀ q ∈ pathsOf fs', q.isCwd = false) ∧
      (∀ (e : Err) (fs' : FS) (c' : Nat) (tr : List Op),
        assembleRun cfg listing probeDur oracle = (Except.error e, fs', c', tr) →
        FPath.outp ∉ pathsOf fs') := by
  constructor
  case right =>
    intro e fs' c' tr hrun
    simp only [assembleRun] at hrun
    by_cases h1 : 0 < cfg.overlayScale ∧ cfg.overlayScale ≤ 1
    case neg =>
      rw [if_neg h1] at hrun
      simp only [Prod.mk.injEq, Except.error.injEq] at hrun
      rw [← hrun.2.1]
      exact outp_not_mem_initFS listing
    rw [if_pos h1] at hrun
    by_cases h2 : 0 ≤ cfg.transitionDuration ∧
        cfg.transitionDuration < min cfg.imageDuration cfg.maxVideoDuration
    case neg =>
      rw [if_neg h2] at hrun
      simp only [Prod.mk.injEq, Except.error.injEq] at hrun
      rw [← hrun.2.1]
      exact outp_not_mem_initFS listing
    rw [if_pos h2] at hrun
    rcases hdims : dimsStage cfg.resolution cfg.width cfg.height with e0 | wh
    · rw [hdims] at hrun
      simp only [Prod.mk.injEq, Except.error.injEq] at hrun
      rw [← hrun.2.1]
      exact outp_not_mem_initFS listing
    rw [hdims] at hrun
    by_cases hemp : (scanFiles listing).isEmpty = true
    case pos =>
      rw [if_pos hemp] at hrun
      simp only [Prod.mk.injEq, Except.error.injEq] at hrun
      rw [← hrun.2.1]
      exact outp_not_mem_initFS listing
    rw [if_neg hemp] at hrun
    rcases hrend : renderAll cfg probeDur (scanFiles listing).length (scanFiles listing) 0
        oracle (initFS listing) 0 with ⟨res1, fs1, c1, tr1⟩
    rw [hrend] at hrun
    have hout1 : FPath.outp ∉ pathsOf fs1 := by
      have := renderAll_out_free cfg probeDur (scanFiles listing).length (scanFiles listing)
        0 oracle (initFS listing) 0 (outp_not_mem_initFS listing)
      rw [hrend] at this
      exact this
    cases res1 with
    | error e1 =>
      simp only [Prod.mk.injEq, Except.error.injEq] at hrun
      rw [← hrun.2.1]
      exact hout1
    | ok pairs =>
    simp only [] at hrun
    rcases hchk : checkTemps (pairs.map Prod.fst) fs1 with e0 | u
    · rw [hchk] at hrun
      simp only [Prod.mk.injEq, Except.error.injEq] at hrun
      rw [← hrun.2.1]
      exact hout1
    rw [hchk] at hrun
    simp only [] at hrun
    rcases hcb : concatBatches cfg.transitionDuration (chunksOf 10 pairs) 0 oracle fs1 c1
        with ⟨res2, fs2, c2, tr2⟩
    rw [hcb] at hrun
    have hout2 : FPath.outp ∉ pathsOf fs2 := by
      have := concatBatches_out_free cfg.transitionDuration (chunksOf 10 pairs) 0 oracle
        fs1 c1 hout1
      rw [hcb] at this
      exact this
    cases res2 with
    | error e2 =>
      simp only [Prod.mk.injEq, Except.error.injEq] at hrun
      rw [← hrun.2.1]
      exact hout2
    | ok batchFiles =>
    simp only [] at hrun
    rcases hfc : finalConcat batchFiles oracle fs2 c2 with ⟨res3, fs3, c3, tr3⟩
    rw [hfc] at hrun
    cases res3 with
    | error e3 =>
      simp only [Prod.mk.injEq, Except.error.injEq] at hrun
      rw [← hrun.2.1]
      exact finalConcat_out_free_error batchFiles oracle fs2 c2 e3 fs3 c3 tr3 hfc hout2
    | ok u3 => simp at hrun
  intro msg fs' c' tr hrun q hq
  simp only [assembleRun] at hrun
  by_cases h1 : 0 < cfg.overlayScale ∧ cfg.overlayScale ≤ 1
  case neg => rw [if_neg h1] at hrun; simp at hrun
  rw [if_pos h1] at hrun
  by_cases h2 : 0 ≤ cfg.transitionDuration ∧
      cfg.transitionDuration < min cfg.imageDuration cfg.maxVideoDuration
  case neg => rw [if_neg h2] at hrun; simp at hrun
  rw [if_pos h2] at hrun
  rcases hdims : dimsStage cfg.resolution cfg.width cfg.height with e | wh
  · rw [hdims] at hrun; simp at hrun
  rw [hdims] at hrun
  by_cases hemp : (scanFiles listing).isEmpty = true
  case pos => rw [if_pos hemp] at hrun; simp at hrun
  rw [if_neg hemp] at hrun
  rcases hrend : renderAll cfg probeDur (scanFiles listing).length (scanFiles listing) 0
      oracle (initFS listing) 0 with ⟨res1, fs1, c1, tr1⟩
  rw [hrend] at hrun
  cases res1 with
  | error e => simp at hrun
  | ok pairs =>
  simp only [] at hrun
  rcases hchk : checkTemps (pairs.map Prod.fst) fs1 with e | u
  · rw [hchk] at hrun; simp at hrun
  rw [hchk] at hrun
  simp only [] at hrun
  rcases hcb : concatBatches cfg.transitionDuration (chunksOf 10 pairs) 0 oracle fs1 c1
      with ⟨res2, fs2, c2, tr2⟩
  rw [hcb] at hrun
  cases res2 with
  | error e => simp at hrun
  | ok batchFiles =>
  simp only [] at hrun
  rcases hfc : finalConcat batchFiles oracle fs2 c2 with ⟨res3, fs3, c3, tr3⟩
  rw [hfc] at hrun
  cases res3 with
  | error e => simp at hrun
  | ok u3 =>
  simp only [Prod.mk.injEq, Except.ok.injEq] at hrun
  rw [← hrun.2.1] at hq
  obtain ⟨hq3, hnot⟩ := cleanup_paths _ fs3 q hq
  rcases finalConcat_paths batchFiles oracle fs2 c2 u3 fs3 c3 tr3 hfc q hq3 with rfl | hq2
  · rfl
  rcases concatBatches_paths cfg.transitionDuration (chunksOf 10 pairs) 0 oracle fs1 c1
      batchFiles fs2 c2 tr2 hcb q hq2 with ⟨b, hb, rfl⟩ | hq1
  · exact absurd rfl (hnot b (List.mem_append_right _ hb))
  rcases renderAll_paths cfg probeDur (scanFiles listing).length (scanFiles listing) 0 oracle
      (initFS listing) 0 pairs fs1 c1 tr1 hrend q hq1 with hq0 | ⟨pr, hpr, rfl⟩
  · exact mem_pathsOf_initFS hq0
  · exact absurd rfl
      (hnot pr.1 (List.mem_append_left _ (List.mem_map_of_mem Prod.fst hpr)))

unseal Rat.add Rat.sub Rat.mul Rat.inv in
theorem cleanup_on_success_witness :
    FPath.isCwd FPath.outp = false ∧
      FPath.outp ∉ pathsOf (assembleRun cfgA ["a.jpg", "b.jpg"] (fun _ => 0) orcFailAt2).2.1 :=
  ⟨(cleanup_on_success cfgA ["a.jpg"] (fun _ => 0) orcOk).1 ("done")
      (assembleRun cfgA ["a.jpg"] (fun _ => 0) orcOk).2.1
      (assembleRun cfgA ["a.jpg"] (fun _ => 0) orcOk).2.2.1
      (assembleRun cfgA ["a.jpg"] (fun _ => 0) orcOk).2.2.2
      (by decide) FPath.outp (by decide),
    (cleanup_on_success cfgA ["a.jpg", "b.jpg"] (fun _ => 0) orcFailAt2).2 Err.engineError
      (assembleRun cfgA ["a.jpg", "b.jpg"] (fun _ => 0) orcFailAt2).2.1
      (assembleRun cfgA ["a.jpg", "b.jpg"] (fun _ => 0) orcFailAt2).2.2.1
      (assembleRun cfgA ["a.jpg", "b.jpg"] (fun _ => 0) orcFailAt2).2.2.2
      (by decide)⟩

unseal Rat.add Rat.sub Rat.mul Rat.inv in
/-- C5 counterexample: when the engine fails at the batch-concatenation call
of a two-image run, the run aborts with an engine error but both rendered
temporary clips are left on disk — cleanup does not happen on this exit
path. -/
theorem cleanup_not_on_engine_failure_counterexample :
    (assembleRun cfgA ["a.jpg", "b.jpg"] (fun _ => 0) orcFailAt2).1 =
        Except.error Err.engineError ∧
      fsMemB (assembleRun cfgA ["a.jpg", "b.jpg"] (fun _ => 0) orcFailAt2).2.1
        (FPath.cwd (tempName 0)) = true ∧
      fsMemB (assembleRun cfgA ["a.jpg", "b.jpg"] (fun _ => 0) orcFailAt2).2.1
        (FPath.cwd (tempName 1)) = true := by
  refine ⟨?_, ?_, ?_⟩ <;> decide

/-- Paths an action creates or overwrites. -/
def Op.writeTargets : Op → List FPath
  | Op.write p => [p]
  | Op.rename _ dst => [dst]
  | Op.engine _ _ out _ => [out]
  | _ => []

/-- Paths an action removes (a rename removes its source). -/
def Op.deleteTargets : Op → List FPath
  | Op.rename src _ => [src]
  | Op.remove p => [p]
  | _ => []

/-- The write targets the original claim allows: temporary clip files, batch
segment files, and the output path. -/
def allowedWriteOrig (p : FPath) : Prop :=
  (∃ i, p = FPath.cwd (tempName i)) ∨ (∃ j, p = FPath.cwd (batchName j)) ∨ p = FPath.outp

/-- The write targets the code actually uses: additionally the batch list
file. -/
def allowedWrite (p : FPath) : Prop := allowedWriteOrig p ∨ p = FPath.cwd batchListName

/-- Paths the pipeline is allowed to delete: temporary clips, batch segments,
and the batch list file — never an input file and never the output. -/
def allowedDelete (p : FPath) : Prop :=
  (∃ i, p = FPath.cwd (tempName i)) ∨ (∃ j, p = FPath.cwd (batchName j)) ∨
    p = FPath.cwd batchListName

/-- An action is frame-correct when none of its created or removed paths is an
input-directory file, every created path is an allowed write target, and every
removed path is an allowed delete target. -/
def opOk (op : Op) : Prop :=
  (∀ p ∈ op.writeTargets, p.isInp = false ∧ allowedWrite p) ∧
    (∀ p ∈ op.deleteTargets, p.isInp = false ∧ allowedDelete p)

theorem opOk_of_no_targets {op : Op} (hw : op.writeTargets = []) (hd : op.deleteTargets = []) :
    opOk op := by
  constructor
  · intro p hp; rw [hw] at hp; simp at hp
  · intro p hp; rw [hd] at hp; simp at hp

theorem opOk_probe (p : FPath) : opOk (Op.probe p) := opOk_of_no_targets rfl rfl

theorem opOk_mkdir : opOk Op.mkdirOutputParent := opOk_of_no_targets rfl rfl

theorem renderAll_ops (cfg : Config) (probeDur : String → ℚ) (total : Nat) :
    ∀ (files : List String) (start : Nat) (oracle : Nat → EngineOutcome) (fs : FS) (c : Nat),
      ∀ op ∈ (renderAll cfg probeDur total files start oracle fs c).2.2.2, opOk op := by
  intro files
  induction files with
  | nil => intro start oracle fs c op hop; simp [renderAll] at hop
  | cons f rest ih =>
    intro start oracle fs c op hop
    have hengine : opOk (Op.engine EngineMode.render [FPath.inp f]
        (FPath.cwd (tempName start)) true) := by
      constructor
      · intro p hp
        simp only [Op.writeTargets, List.mem_singleton] at hp
        subst hp
        exact ⟨rfl, Or.inl (Or.inl ⟨start, rfl⟩)⟩
      · intro p hp; simp [Op.deleteTargets] at hp
    have hprobes : ∀ q ∈ (if isImageName f then [Op.probe (FPath.inp f)]
        else [Op.probe (FPath.inp f), Op.probe (FPath.inp f)]), opOk q := by
      intro q hq
      by_cases hf : isImageName f <;> simp [hf, List.mem_singleton] at hq
      · subst hq; exact opOk_probe _
      · rcases hq with rfl | rfl <;> exact opOk_probe _
    simp only [renderAll] at hop
    cases ho : oracle c <;> simp only [ho] at hop
    case fail =>
      rcases List.mem_append.mp hop with hp | hp
      · exact hprobes op hp
      · simp only [List.mem_singleton] at hp; subst hp; exact hengine
    case ok =>
      rcases hr : renderAll cfg probeDur total rest (start + 1) oracle
          (writeFS fs (FPath.cwd (tempName start)) 1) (c + 1) with ⟨res1, fsr, cr, trr⟩
      rw [hr] at hop
      have htrr : ∀ q ∈ trr, opOk q := by
        intro q hq
        have := ih (start + 1) oracle (writeFS fs (FPath.cwd (tempName start)) 1) (c + 1) q
        rw [hr] at this
        exact this hq
      cases res1 with
      | error e =>
        rcases List.mem_append.mp hop with hp | hp
        · exact hprobes op hp
        · rcases List.mem_cons.mp hp with rfl | hp2
          · exact hengine
          · exact htrr op hp2
      | ok pairs1 =>
        rcases List.mem_append.mp hop with hp | hp
        · exact hprobes op hp
        · rcases List.mem_cons.mp hp with rfl | hp2
          · exact hengine
          · exact htrr op hp2
    case empty =>
      rcases hr : renderAll cfg probeDur total rest (start + 1) oracle
          (writeFS fs (FPath.cwd (tempName start)) 0) (c + 1) with ⟨res1, fsr, cr, trr⟩
      rw [hr] at hop
      have htrr : ∀ q ∈ trr, opOk q := by
        intro q hq
        have := ih (start + 1) oracle (writeFS fs (FPath.cwd (tempName start)) 0) (c + 1) q
        rw [hr] at this
        exact this hq
      cases res1 with
      | error e =>
        rcases List.mem_append.mp hop with hp | hp
        · exact hprobes op hp
        · rcases List.mem_cons.mp hp with rfl | hp2
          · exact hengine
          · exact htrr op hp2
      | ok pairs1 =>
        rcases List.mem_append.mp hop with hp | hp
        · exact hprobes op hp
        · rcases List.mem_cons.mp hp with rfl | hp2
          · exact hengine
          · exact htrr op hp2

theorem renderAll_names (cfg : Config) (probeDur : String → ℚ) (total : Nat) :
    ∀ (files : List String) (start : Nat) (oracle : Nat → EngineOutcome) (fs : FS) (c : Nat)
      (pairs : List (String × ℚ)) (fs' : FS) (c' : Nat) (tr : List Op),
      renderAll cfg probeDur total files start oracle fs c = (Except.ok pairs, fs', c', tr) →
      ∀ pr ∈ pairs, ∃ i, pr.1 = tempName i := by
  intro files
  induction files with
  | nil =>
    intro start oracle fs c pairs fs' c' tr h pr hpr
    simp only [renderAll, Prod.mk.injEq, Except.ok.injEq] at h
    rw [← h.1] at hpr
    simp at hpr
  | cons f rest ih =>
    intro start oracle fs c pairs fs' c' tr h pr hpr
    simp only [renderAll] at h
    cases ho : oracle c <;> simp only [ho] at h
    case fail => simp at h
    case ok =>
      rcases hr : renderAll cfg probeDur total rest (start + 1) oracle
          (writeFS fs (FPath.cwd (tempName start)) 1) (c + 1) with ⟨res1, fsr, cr, trr⟩
      rw [hr] at h
      cases res1 with
      | error e => simp at h
      | ok pairs1 =>
        simp only [Prod.mk.injEq, Except.ok.injEq] at h
        rw [← h.1] at hpr
        rcases List.mem_cons.mp hpr with rfl | hpr2
        · exact ⟨start, rfl⟩
        · exact ih (start + 1) oracle _ (c + 1) pairs1 fsr cr trr hr pr hpr2
    case empty =>
      rcases hr : renderAll cfg probeDur total rest (start + 1) oracle
          (writeFS fs (FPath.cwd (tempName start)) 0) (c + 1) with ⟨res1, fsr, cr, trr⟩
      rw [hr] at h
      cases res1 with
      | error e => simp at h
      | ok pairs1 =>
        simp only [Prod.mk.injEq, Except.ok.injEq] at h
        rw [← h.1] at hpr
        rcases List.mem_cons.mp hpr with rfl | hpr2
        · exact ⟨start, rfl⟩
        · exact ih (start + 1) oracle _ (c + 1) pairs1 fsr cr trr hr pr hpr2

theorem opOk_xfade (inputs : List FPath) (j : Nat) (offs : List ℚ) :
    opOk (Op.engine (EngineMode.xfade offs) inputs (FPath.cwd (batchName j)) true) := by
  constructor
  · intro p hp
    simp only [Op.writeTargets, List.mem_singleton] at hp
    subst hp
    exact ⟨rfl, Or.inl (Or.inr (Or.inl ⟨j, rfl⟩))⟩
  · intro p hp; simp [Op.deleteTargets] at hp

theorem concatenate_batch_ops (temps : List String) (ds : List ℚ) (T : ℚ) (j : Nat)
    (oracle : Nat → EngineOutcome) (fs : FS) (c : Nat)
    (htemp : ∀ t ∈ temps, ∃ i, t = tempName i) :
    ∀ op ∈ (concatenate_batch temps ds T (batchName j) oracle fs c).2.2.2, opOk op := by
  match temps with
  | [t] =>
    intro op hop
    simp only [concatenate_batch, List.mem_singleton] at hop
    subst hop
    obtain ⟨i, rfl⟩ := htemp t (by simp)
    constructor
    · intro p hp
      simp only [Op.writeTargets, List.mem_singleton] at hp
      subst hp
      exact ⟨rfl, Or.inl (Or.inr (Or.inl ⟨j, rfl⟩))⟩
    · intro p hp
      simp only [Op.deleteTargets, List.mem_singleton] at hp
      subst hp
      exact ⟨rfl, Or.inl ⟨i, rfl⟩⟩
  | [] =>
    intro op hop
    simp only [concatenate_batch] at hop
    cases ho : oracle c <;> simp only [ho, List.mem_singleton] at hop <;>
      (subst hop; exact opOk_xfade _ j _)
  | t1 :: t2 :: ts =>
    intro op hop
    simp only [concatenate_batch] at hop
    cases ho : oracle c <;> simp only [ho, List.mem_singleton] at hop <;>
      (subst hop; exact opOk_xfade _ j _)

theorem concatBatches_ops (T : ℚ) :
    ∀ (batches : List (List (String × ℚ))) (bIdx : Nat) (oracle : Nat → EngineOutcome)
      (fs : FS) (c : Nat),
      (∀ b ∈ batches, ∀ pr ∈ b, ∃ i, Prod.fst pr = tempName i) →
      ∀ op ∈ (concatBatches T batches bIdx oracle fs c).2.2.2, opOk op := by
  intro batches
  induction batches with
  | nil => intro bIdx oracle fs c _ op hop; simp [concatBatches] at hop
  | cons b rest ih =>
    intro bIdx oracle fs c htemp op hop
    simp only [concatBatches] at hop
    have hb : ∀ t ∈ b.map Prod.fst, ∃ i, t = tempName i := by
      intro t ht
      obtain ⟨pr, hpr, rfl⟩ := List.mem_map.mp ht
      exact htemp b (by simp) pr hpr
    rcases h1 : concatenate_batch (b.map Prod.fst) (b.map Prod.snd) T (batchName bIdx)
        oracle fs c with ⟨res1, fs1, c1, tr1⟩
    rw [h1] at hop
    have htr1 : ∀ q ∈ tr1, opOk q := by
      intro q hq
      have := concatenate_batch_ops (b.map Prod.fst) (b.map Prod.snd) T bIdx oracle fs c hb q
      rw [h1] at this
      exact this hq
    cases res1 with
    | error e => exact htr1 op hop
    | ok u =>
      simp only [] at hop
      rcases h2 : concatBatches T rest (bIdx + 1) oracle fs1 c1 with ⟨res2, fs2, c2, tr2⟩
      rw [h2] at hop
      have htr2 : ∀ q ∈ tr2, opOk q := by
        intro q hq
        have := ih (bIdx + 1) oracle fs1 c1 (fun bb hbb => htemp bb (by simp [hbb])) q
        rw [h2] at this
        exact this hq
      cases res2 with
      | error e =>
        rcases List.mem_append.mp hop with hp | hp
        · exact htr1 op hp
        · exact htr2 op hp
      | ok outs =>
        rcases List.mem_append.mp hop with hp | hp
        · exact htr1 op hp
        · exact htr2 op hp

theorem concatBatches_names (T : ℚ) :
    ∀ (batches : List (List (String × ℚ))) (bIdx : Nat) (oracle : Nat → EngineOutcome)
      (fs : FS) (c : Nat) (outs : List String) (fs' : FS) (c' : Nat) (tr : List Op),
      concatBatches T batches bIdx oracle fs c = (Except.ok outs, fs', c', tr) →
      ∀ b ∈ outs, ∃ j, b = batchName j := by
  intro batches
  induction batches with
  | nil =>
    intro bIdx oracle fs c outs fs' c' tr h b hb
    simp only [concatBatches, Prod.mk.injEq, Except.ok.injEq] at h
    rw [← h.1] at hb
    simp at hb
  | cons bb rest ih =>
    intro bIdx oracle fs c outs fs' c' tr h b hb
    simp only [concatBatches] at h
    rcases h1 : concatenate_batch (bb.map Prod.fst) (bb.map Prod.snd) T (batchName bIdx)
        oracle fs c with ⟨res1, fs1, c1, tr1⟩
    rw [h1] at h
    cases res1 with
    | error e => simp at h
    | ok u =>
      simp only [] at h
      rcases h2 : concatBatches T rest (bIdx + 1) oracle fs1 c1 with ⟨res2, fs2, c2, tr2⟩
      rw [h2] at h
      cases res2 with
      | error e => simp at h
      | ok outs2 =>
        simp only [Prod.mk.injEq, Except.ok.injEq] at h
        rw [← h.1] at hb
        rcases List.mem_cons.mp hb with rfl | hb2
        · exact ⟨bIdx, rfl⟩
        · exact ih (bIdx + 1) oracle fs1 c1 outs2 fs2 c2 tr2 h2 b hb2

theorem opOk_write_list : opOk (Op.write (FPath.cwd batchListName)) := by
  constructor
  · intro p hp
    simp only [Op.writeTargets, List.mem_singleton] at hp
    subst hp
    exact ⟨rfl, Or.inr rfl⟩
  · intro p hp; simp [Op.deleteTargets] at hp

theorem opOk_remove_list : opOk (Op.remove (FPath.cwd batchListName)) := by
  constructor
  · intro p hp; simp [Op.writeTargets] at hp
  · intro p hp
    simp only [Op.deleteTargets, List.mem_singleton] at hp
    subst hp
    exact ⟨rfl, Or.inr (Or.inr rfl)⟩

theorem opOk_concatDemux (inputs : List FPath) : opOk
    (Op.engine EngineMode.concatDemux inputs FPath.outp true) := by
  constructor
  · intro p hp
    simp only [Op.writeTargets, List.mem_singleton] at hp
    subst hp
    exact ⟨rfl, Or.inl (Or.inr (Or.inr rfl))⟩
  · intro p hp; simp [Op.deleteTargets] at hp

theorem finalConcat_ops (batchFiles : List String) (oracle : Nat → EngineOutcome)
    (fs : FS) (c : Nat) (hb : ∀ b ∈ batchFiles, ∃ j, b = batchName j) :
    ∀ op ∈ (finalConcat batchFiles oracle fs c).2.2.2, opOk op := by
  match batchFiles with
  | [b] =>
    intro op hop
    simp only [finalConcat, List.mem_singleton] at hop
    subst hop
    obtain ⟨j, rfl⟩ := hb b (by simp)
    constructor
    · intro p hp
      simp only [Op.writeTargets, List.mem_singleton] at hp
      subst hp
      exact ⟨rfl, Or.inl (Or.inr (Or.inr rfl))⟩
    · intro p hp
      simp only [Op.deleteTargets, List.mem_singleton] at hp
      subst hp
      exact ⟨rfl, Or.inr (Or.inl ⟨j, rfl⟩)⟩
  | [] =>
    intro op hop
    simp only [finalConcat] at hop
    cases ho : oracle c <;> simp only [ho] at hop
    case fail =>
      rcases List.mem_cons.mp hop with rfl | hop2
      · exact opOk_write_list
      · simp only [List.mem_singleton] at hop2; subst hop2; exact opOk_concatDemux _
    case ok =>
      rcases List.mem_append.mp hop with hp | hp
      · rcases List.mem_cons.mp hp with rfl | hp2
        · exact opOk_write_list
        · simp only [List.mem_singleton] at hp2; subst hp2; exact opOk_concatDemux _
      · simp only [List.mem_singleton] at hp; subst hp; exact opOk_remove_list
    case empty =>
      rcases List.mem_append.mp hop with hp | hp
      · rcases List.mem_cons.mp hp with rfl | hp2
        · exact opOk_write_list
        · simp only [List.mem_singleton] at hp2; subst hp2; exact opOk_concatDemux _
      · simp only [List.mem_singleton] at hp; subst hp; exact opOk_remove_list
  | b1 :: b2 :: bs =>
    intro op hop
    simp only [finalConcat] at hop
    cases ho : oracle c <;> simp only [ho] at hop
    case fail =>
      rcases List.mem_cons.mp hop with rfl | hop2
      · exact opOk_write_list
      · simp only [List.mem_singleton] at hop2; subst hop2; exact opOk_concatDemux _
    case ok =>
      rcases List.mem_append.mp hop with hp | hp
      · rcases List.mem_cons.mp hp with rfl | hp2
        · exact opOk_write_list
        · simp only [List.mem_singleton] at hp2; subst hp2; exact opOk_concatDemux _
      · simp only [List.mem_singleton] at hp; subst hp; exact opOk_remove_list
    case empty =>
      rcases List.mem_append.mp hop with hp | hp
      · rcases List.mem_cons.mp hp with rfl | hp2
        · exact opOk_write_list
        · simp only [List.mem_singleton] at hp2; subst hp2; exact opOk_concatDemux _
      · simp only [List.mem_singleton] at hp; subst hp; exact opOk_remove_list

theorem cleanup_ops : ∀ (names : List String) (fs : FS),
    (∀ n ∈ names, (∃ i, n = tempName i) ∨ (∃ j, n = batchName j)) →
    ∀ op ∈ (cleanup names fs).2, opOk op := by
  intro names
  induction names with
  | nil => intro fs _ op hop; simp [cleanup] at hop
  | cons n rest ih =>
    intro fs hn op hop
    simp only [cleanup] at hop
    by_cases hmem : fsMemB fs (FPath.cwd n) = true
    · rw [if_pos hmem] at hop
      rcases List.mem_cons.mp hop with rfl | hop2
      · constructor
        · intro p hp; simp [Op.writeTargets] at hp
        · intro p hp
          simp only [Op.deleteTargets, List.mem_singleton] at hp
          subst hp
          refine ⟨rfl, ?_⟩
          rcases hn n (by simp) with ⟨i, rfl⟩ | ⟨j, rfl⟩
          · exact Or.inl ⟨i, rfl⟩
          · exact Or.inr (Or.inl ⟨j, rfl⟩)
      · exact ih (removeFS fs (FPath.cwd n)) (fun m hm => hn m (by simp [hm])) op hop2
    · rw [if_neg hmem] at hop
      exact ih fs (fun m hm => hn m (by simp [hm])) op hop

theorem chunksOfAux_flat (n : Nat) : ∀ (fuel : Nat) (l : List α) (c : List α),
    c ∈ chunksOfAux n fuel l → ∀ x ∈ c, x ∈ l := by
  intro fuel
  induction fuel with
  | zero => intro l c hc; simp [chunksOfAux] at hc
  | succ m ih =>
    intro l c hc x hx
    match l with
    | [] => simp [chunksOfAux] at hc
    | y :: ys =>
      simp only [chunksOfAux, List.mem_cons] at hc
      rcases hc with rfl | hc2
      · exact List.take_subset n (y :: ys) hx
      · exact List.drop_subset n (y :: ys) (ih (List.drop n (y :: ys)) c hc2 x hx)

/-- C9 (amended): on every exit path, no pipeline action ever creates,
overwrites, or removes an input-directory file; every created file is a
temporary clip `temp_NNN.mp4`, a batch segment `batch_NNN.mp4`, the batch
list file `batch_list.txt`, or the output path; and every removed file is a
temporary clip, a batch segment, or the batch list file. -/
theorem frame_effect_amended (cfg : Config) (listing : List String) (probeDur : String → ℚ)
    (oracle : Nat → EngineOutcome) (op : Op)
    (hop : op ∈ (assembleRun cfg listing probeDur oracle).2.2.2) : opOk op := by
  simp only [assembleRun] at hop
  by_cases h1 : 0 < cfg.overlayScale ∧ cfg.overlayScale ≤ 1
  case neg => rw [if_neg h1] at hop; simp at hop
  rw [if_pos h1] at hop
  by_cases h2 : 0 ≤ cfg.transitionDuration ∧
      cfg.transitionDuration < min cfg.imageDuration cfg.maxVideoDuration
  case neg => rw [if_neg h2] at hop; simp at hop
  rw [if_pos h2] at hop
  rcases hdims : dimsStage cfg.resolution cfg.width cfg.height with e | wh
  · rw [hdims] at hop; simp at hop
  rw [hdims] at hop
  by_cases hemp : (scanFiles listing).isEmpty = true
  case pos =>
    rw [if_pos hemp] at hop
    simp only [List.mem_singleton] at hop
    subst hop
    exact opOk_mkdir
  rw [if_neg hemp] at hop
  rcases hrend : renderAll cfg probeDur (scanFiles listing).length (scanFiles listing) 0
      oracle (initFS listing) 0 with ⟨res1, fs1, c1, tr1⟩
  rw [hrend] at hop
  have htr1 : ∀ q ∈ tr1, opOk q := by
    intro q hq
    have := renderAll_ops cfg probeDur (scanFiles listing).length (scanFiles listing) 0
      oracle (initFS listing) 0 q
    rw [hrend] at this
    exact this hq
  cases res1 with
  | error e =>
    rcases List.mem_cons.mp hop with rfl | hop2
    · exact opOk_mkdir
    · exact htr1 op hop2
  | ok pairs =>
  simp only [] at hop
  have hnames := renderAll_names cfg probeDur (scanFiles listing).length (scanFiles listing) 0
    oracle (initFS listing) 0 pairs fs1 c1 tr1 hrend
  have hchunks : ∀ b ∈ chunksOf 10 pairs, ∀ pr ∈ b, ∃ i, Prod.fst pr = tempName i :=
    fun b hb pr hpr => hnames pr (chunksOfAux_flat 10 pairs.length pairs b hb pr hpr)
  rcases hchk : checkTemps (pairs.map Prod.fst) fs1 with e | u
  · rw [hchk] at hop
    rcases List.mem_cons.mp hop with rfl | hop2
    · exact opOk_mkdir
    · exact htr1 op hop2
  rw [hchk] at hop
  simp only [] at hop
  rcases hcb : concatBatches cfg.transitionDuration (chunksOf 10 pairs) 0 oracle fs1 c1
      with ⟨res2, fs2, c2, tr2⟩
  rw [hcb] at hop
  have htr2 : ∀ q ∈ tr2, opOk q := by
    intro q hq
    have := concatBatches_ops cfg.transitionDuration (chunksOf 10 pairs) 0 oracle fs1 c1
      hchunks q
    rw [hcb] at this
    exact this hq
  cases res2 with
  | error e =>
    rcases List.mem_cons.mp hop with rfl | hop2
    · exact opOk_mkdir
    · rcases List.mem_append.mp hop2 with hp | hp
      · exact htr1 op hp
      · exact htr2 op hp
  | ok batchFiles =>
  simp only [] at hop
  have hbnames := concatBatches_names cfg.transitionDuration (chunksOf 10 pairs) 0 oracle
    fs1 c1 batchFiles fs2 c2 tr2 hcb
  rcases hfc : finalConcat batchFiles oracle fs2 c2 with ⟨res3, fs3, c3, tr3⟩
  rw [hfc] at hop
  have htr3 : ∀ q ∈ tr3, opOk q := by
    intro q hq
    have := finalConcat_ops batchFiles oracle fs2 c2 hbnames q
    rw [hfc] at this
    exact this hq
  cases res3 with
  | error e =>
    rcases List.mem_cons.mp hop with rfl | hop2
    · exact opOk_mkdir
    · rcases List.mem_append.mp hop2 with hp | hp
      · rcases List.mem_append.mp hp with hp2 | hp2
        · exact htr1 op hp2
        · exact htr2 op hp2
      · exact htr3 op hp
  | ok u3 =>
  simp only [] at hop
  have hclean : ∀ q ∈ (cleanup (pairs.map Prod.fst ++ batchFiles) fs3).2, opOk q := by
    apply cleanup_ops
    intro m hm
    rcases List.mem_append.mp hm with hp | hp
    · obtain ⟨pr, hpr, rfl⟩ := List.mem_map.mp hp
      exact Or.inl (hnames pr hpr)
    · exact Or.inr (hbnames m hp)
  rcases List.mem_cons.mp hop with rfl | hop2
  · exact opOk_mkdir
  · rcases List.mem_append.mp hop2 with hp | hp
    · rcases List.mem_append.mp hp with hp2 | hp2
      · rcases List.mem_append.mp hp2 with hp3 | hp3
        · exact htr1 op hp3
        · exact htr2 op hp3
      · exact htr3 op hp2
    · exact hclean op hp

unseal Rat.add Rat.sub Rat.mul Rat.inv in
theorem frame_effect_amended_witness : opOk Op.mkdirOutputParent :=
  frame_effect_amended cfgA ["a.jpg"] (fun _ => 0) orcOk Op.mkdirOutputParent (by decide)

theorem mp4Name_ne_batchList (stem : String) (i : Nat) : mp4Name stem i ≠ batchListName := by
  intro h
  have hd : ((stem ++ pad3 i) ++ (".mp4")).data = batchListName.data := congrArg String.data h
  rw [String.data_append] at hd
  have hb : batchListName.data =
      ['b', 'a', 't', 'c', 'h', '_', 'l', 'i', 's', 't'] ++ ['.', 't', 'x', 't'] := by decide
  rw [hb] at hd
  have hlen : ((".mp4") : String).data.length = (['.', 't', 'x', 't'] : List Char).length := by
    decide
  have := (List.append_inj' hd hlen).2
  simp at this

theorem cwd_batchList_not_allowedWriteOrig : ¬ allowedWriteOrig (FPath.cwd batchListName) := by
  rintro (⟨i, hi⟩ | ⟨j, hj⟩ | hout)
  · exact mp4Name_ne_batchList ("temp_") i (FPath.cwd.inj hi).symm
  · exact mp4Name_ne_batchList ("batch_") j (FPath.cwd.inj hj).symm
  · exact FPath.noConfusion hout

unseal Rat.add Rat.sub Rat.mul Rat.inv in
/-- C9 counterexample: the eleven-image run writes the batch list file
`batch_list.txt`, which is neither a temporary clip `temp_NNN.mp4`, nor a
batch segment `batch_NNN.mp4`, nor the output path — the claim's enumeration
of write targets misses it. -/
theorem writes_batch_list_counterexample :
    Op.write (FPath.cwd batchListName) ∈
        (assembleRun cfgA listingEleven (fun _ => 0) orcOk).2.2.2 ∧
      ¬ allowedWriteOrig (FPath.cwd batchListName) :=
  ⟨by decide, cwd_batchList_not_allowedWriteOrig⟩

/-- C8: the scanner's output — the carousel order — is a pure function of the
set of filenames: any two listings that are permutations of one another yield
the identical sorted asset list, so arrival or discovery order never affects
the carousel order. -/
theorem scanner_order_deterministic (l1 l2 : List String) (hp : l1.Perm l2) :
    scanFiles l1 = scanFiles l2 := by
  have hpf : (l1.filter isSupported).Perm (l2.filter isSupported) := hp.filter _
  have hperm : (scanFiles l1).Perm (scanFiles l2) :=
    ((List.perm_insertionSort pyStrLe _).trans hpf).trans
      (List.perm_insertionSort pyStrLe _).symm
  exact List.eq_of_perm_of_sorted hperm
    (List.sorted_insertionSort pyStrLe _) (List.sorted_insertionSort pyStrLe _)

theorem scanner_order_deterministic_witness :
    scanFiles ["b.jpg", "a.jpg", "c.txt"] = scanFiles ["a.jpg", "c.txt", "b.jpg"] :=
  scanner_order_deterministic ["b.jpg", "a.jpg", "c.txt"] ["a.jpg", "c.txt", "b.jpg"]
    (by decide)

unseal Rat.add Rat.sub Rat.mul Rat.inv in
theorem validate_720 : validate_16_9 1280 720 = Except.ok () := by decide

unseal Rat.add Rat.sub Rat.mul Rat.inv in
theorem validate_1080 : validate_16_9 1920 1080 = Except.ok () := by decide

unseal Rat.add Rat.sub Rat.mul Rat.inv in
theorem validate_4k : validate_16_9 3840 2160 = Except.ok () := by decide

/-- C10: canvas dimension resolution precedence: a supplied (valid) preset
determines both dimensions and any explicit width/height values are ignored;
without a preset the missing width defaults to 1280 and the missing height to
720 independently (Python `or` defaults); and the resulting pair is then
subjected to the 16:9 aspect-ratio validation. -/
theorem dims_resolution_precedence (w h w2 h2 : Option Nat) :
    (∀ r, (get_resolution_dimensions r).isOk = true →
        dimsStage (some r) w h = dimsStage (some r) w2 h2) ∧
      dimsStage (some ("720p")) w h = Except.ok (1280, 720) ∧
      dimsStage (some ("1080p")) w h = Except.ok (1920, 1080) ∧
      dimsStage (some ("4k")) w h = Except.ok (3840, 2160) ∧
      resolveDims none w h = Except.ok (pyOrNat w 1280, pyOrNat h 720) ∧
      pyOrNat none 1280 = 1280 ∧ pyOrNat none 720 = 720 ∧
      dimsStage none w h =
        (match validate_16_9 (pyOrNat w 1280) (pyOrNat h 720) with
         | Except.error e => Except.error e
         | Except.ok _ => Except.ok (pyOrNat w 1280, pyOrNat h 720)) := by
  refine ⟨?_, ?_, ?_, ?_, rfl, rfl, rfl, rfl⟩
  · intro r hr
    have hne : ¬ r = "" := by
      intro he
      subst he
      revert hr
      decide
    simp [dimsStage, resolveDims, hne]
  · have h1 : resolveDims (some ("720p")) w h = Except.ok (1280, 720) := rfl
    simp [dimsStage, h1, validate_720]
  · have h1 : resolveDims (some ("1080p")) w h = Except.ok (1920, 1080) := rfl
    simp [dimsStage, h1, validate_1080]
  · have h1 : resolveDims (some ("4k")) w h = Except.ok (3840, 2160) := rfl
    simp [dimsStage, h1, validate_4k]

theorem dims_resolution_precedence_witness :
    dimsStage (some ("720p")) (some 5) (some 7) = dimsStage (some ("720p")) none none :=
  (dims_resolution_precedence (some 5) (some 7) none none).1 ("720p") (by decide)

/-- C3 counterexample: with one thread the claimed bound is
`clamp(1, 2 × 1, 10) = 2`, but the code puts all three clips of a three-clip
run into a single batch of size 3. -/
theorem batch_size_clamp_counterexample :
    ¬ (∀ c ∈ chunksOf 10
        [(tempName 0, (5 : ℚ)), (tempName 1, (5 : ℚ)), (tempName 2, (5 : ℚ))],
        c.length ≤ clampBatch 1) := by
  decide

end Carousel
